import Mathlib

/-!
Verification development for the source-code formatter in
`src/compiler-core/src/format.rs` (the Gleam compiler's formatter).

The formatter is embedded shallowly:

* The document algebra and layout engine live in the `pretty` module, which is
  part of this repository but not under `src/`; they are modelled from the
  spec (sections 3 and 4.1: literal text, mandatory line breaks, conditional
  breaks with a flex variant, concatenation, indentation, groups resolved by a
  width-fits decision, forced-break markers).  The fill-style behaviour of
  flex breaks inside an already-broken group is not exercised by any claim
  verified here (every flex break below occurs inside a group that fits), so
  broken flex breaks are rendered like strict ones.
* The AST lives in the repository's `ast` module, also not under `src/`; the
  constructors, field names and helper functions (`binop_precedence`,
  `precedence`, `CAPTURE_VARIABLE`, `is_import`, `is_capture_hole`) are
  modelled from the spec and from their uses inside `format.rs`.  Only the
  syntactic forms exercised by the claims are included (in particular `Fn`
  nodes are modelled in their capture form only, and definitions are modelled
  as imports and module constants).
* Everything in `format.rs` itself is translated function by function,
  keeping the source's names.  Rust's `&mut self` trivia cursor becomes a
  state monad over the `Formatter` record; Rust `panic!`/`unreachable!` become
  the `Except` layer of that monad.

Byte offsets are `Nat` (`u32::MAX` is kept as the literal 4294967295), and
`u8` precedences are `Nat`s bounded by 255.
-/

set_option maxHeartbeats 1000000
set_option linter.unreachableTactic false
set_option linter.unusedTactic false

namespace GleamFormat

/-! ## The document algebra (modelled from the spec, `pretty` module) -/

/-- Modelled from the spec: the immutable document tree of the layout engine
(spec section 3).  `Break broken unbroken flex` is a conditional break
carrying its broken-mode text and flat-mode text; `flex = true` marks the
fill-style variant.  `ForceBroken` marks a subtree whose enclosing group must
never flatten.  Concatenation is binary (`Append`), which renders identically
to the source's vector-of-documents representation. -/
inductive Document where
  | Nil : Document
  | Text (s : String) : Document
  | Line (n : Nat) : Document
  | Break (broken unbroken : String) (flex : Bool) : Document
  | Append (d1 d2 : Document) : Document
  | Nest (i : Nat) (d : Document) : Document
  | Group (d : Document) : Document
  | ForceBroken (d : Document) : Document
deriving DecidableEq

/-- The fixed indent unit (`const INDENT: isize = 2`). -/
def INDENT : Nat := 2

def Document.append (d1 d2 : Document) : Document := .Append d1 d2

def Document.nest (d : Document) (i : Nat) : Document := .Nest i d

def Document.group (d : Document) : Document := .Group d

def Document.force_break (d : Document) : Document := .ForceBroken d

/-- `doc.surround(open, closed)` from the `pretty` module. -/
def Document.surround (d : Document) (opn cls : String) : Document :=
  .Append (.Append (.Text opn) d) (.Text cls)

def line : Document := .Line 1

def lines (n : Nat) : Document := .Line n

def nil : Document := .Nil

def break_ (broken unbroken : String) : Document := .Break broken unbroken false

def flex_break (broken unbroken : String) : Document := .Break broken unbroken true

/-- Concatenation of a list of documents (the source's `concat` /
`Document::Vec`). -/
def concat (ds : List Document) : Document := ds.foldl .Append .Nil

/-- Intersperse a separator between documents, as `Itertools::intersperse`. -/
def intersperse (ds : List Document) (sep : Document) : List Document :=
  match ds with
  | [] => []
  | [d] => [d]
  | d :: rest => d :: sep :: intersperse rest sep

/-- The source's `join(docs, separator)`. -/
def join (ds : List Document) (sep : Document) : Document :=
  concat (intersperse ds sep)

/-- Modelled from the spec: `Document::is_empty`, true when the document
renders no text in any mode. -/
def Document.is_empty : Document → Bool
  | .Nil => true
  | .Text s => s.isEmpty
  | .Line n => n == 0
  | .Break b u _ => b.isEmpty && u.isEmpty
  | .Append a b => a.is_empty && b.is_empty
  | .Nest _ d => d.is_empty
  | .Group d => d.is_empty
  | .ForceBroken d => d.is_empty

/-! ## The layout engine (modelled from the spec, section 4.1) -/

/-- Render mode of a subtree: committed flat or committed broken. -/
inductive Mode where
  | flat : Mode
  | brk : Mode
deriving DecidableEq

/-- Width of the flattened single-line rendering of a document, or `none`
when the document cannot be flattened (it contains a mandatory newline or a
forced-break marker), per the spec's fits test. -/
def Document.flatWidth : Document → Option Nat
  | .Nil => some 0
  | .Text s => some s.length
  | .Line _ => none
  | .Break _ u _ => some u.length
  | .Append a b =>
    match a.flatWidth, b.flatWidth with
    | some x, some y => some (x + y)
    | _, _ => none
  | .Nest _ d => d.flatWidth
  | .Group d => d.flatWidth
  | .ForceBroken _ => none

def spacesStr (n : Nat) : String := String.mk (List.replicate n ' ')

def newlines (n : Nat) : String := String.mk (List.replicate n '\n')

/-- Modelled from the spec: the renderer.  Returns the produced text and the
column after rendering.  A group commits its whole subtree to flat mode when
the flattened width fits in the remaining line width, otherwise to broken
mode. -/
def Document.render (width : Nat) : Document → Nat → Nat → Mode → String × Nat
  | .Nil, _, col, _ => ("", col)
  | .Text s, _, col, _ => (s, col + s.length)
  | .Line n, indent, _, _ => (newlines n ++ spacesStr indent, indent)
  | .Break _ u _, _, col, .flat => (u, col + u.length)
  | .Break b _ _, indent, _, .brk => (b ++ "\n" ++ spacesStr indent, indent)
  | .Append a b, indent, col, m =>
    let r1 := a.render width indent col m
    let r2 := b.render width indent r1.2 m
    (r1.1 ++ r2.1, r2.2)
  | .Nest i d, indent, col, m => d.render width (indent + i) col m
  | .Group d, indent, col, _ =>
    let fits : Bool :=
      match d.flatWidth with
      | some w => decide (col + w ≤ width)
      | none => false
    d.render width indent col (if fits then .flat else .brk)
  | .ForceBroken d, indent, col, m => d.render width indent col m

/-- Render a document at the fixed print width of 80 columns
(`pretty_print(80, writer)`). -/
def renderDoc (d : Document) : String := (d.render 80 0 0 .brk).1

/-! ## Trivia and the formatter state -/

/-- A source comment: its start byte offset and its text (the part after the
`//` / `///` marker), as in `parse::extra::Comment`. -/
structure Comment where
  start : Nat
  content : String
deriving DecidableEq

/-- The `Formatter` struct of `format.rs`: four not-yet-consumed trivia
cursors. -/
structure Formatter where
  comments : List Comment
  doc_comments : List Comment
  module_comments : List Comment
  empty_lines : List Nat
deriving DecidableEq

/-- A fatal invariant-violation failure: the embedding of a Rust
`panic!`/`unreachable!` inside the formatter.  This type deliberately has no
constructor for parse errors — parse failures happen before lowering starts
and never flow through the formatter (spec section 7). -/
inductive Fatal where
  | fatal (message : String) : Fatal
deriving DecidableEq

/-- The formatter's effect monad: Rust's `&mut self` cursor state plus the
possibility of a fatal invariant violation. -/
abbrev FmtM := StateT Formatter (Except Fatal)

/-- `Formatter::new`, and the state used to format trivia-free snippets. -/
def Formatter.new : Formatter := ⟨[], [], [], []⟩

instance {ε α : Type} [DecidableEq ε] [DecidableEq α] : DecidableEq (Except ε α) := fun
  | .error e, .error e' =>
    decidable_of_iff (e = e') ⟨by intro h; rw [h], by intro h; injection h⟩
  | .error _, .ok _ => isFalse (fun h => Except.noConfusion h)
  | .ok _, .error _ => isFalse (fun h => Except.noConfusion h)
  | .ok a, .ok a' =>
    decidable_of_iff (a = a') ⟨by intro h; rw [h], by intro h; injection h⟩

/-! ### `comments_before` (format.rs lines 1839–1885) -/

/-- Helper for `mergeBy`: merge `x :: xs` with the second list, where
`mergeRest` merges `xs` with a remainder of the second list. -/
def mergeByAux (lt : α → α → Bool) (x : α) (xs : List α)
    (mergeRest : List α → List α) : List α → List α
  | [] => x :: xs
  | y :: ys => if lt x y then x :: mergeRest (y :: ys) else y :: mergeByAux lt x xs mergeRest ys

/-- `Itertools::merge_by`: emit the left element while the predicate holds,
otherwise the right one (so on a tie the right element comes first, matching
`merge_by(…, |(a, _), (b, _)| a < b)`). -/
def mergeBy (lt : α → α → Bool) : List α → List α → List α
  | [], ys => ys
  | x :: xs, ys => mergeByAux lt x xs (fun r => mergeBy lt xs r) ys

/-- Helper for `coalesce_runs` carrying the run being accumulated. -/
def coalesce_go (cur : Nat × Nat) : List (Nat × Nat) → List (Nat × Nat)
  | [] => [cur]
  | b :: rest =>
    if cur.2 + 1 = b.1 then coalesce_go (cur.1, b.2) rest
    else cur :: coalesce_go b rest

/-- `Itertools::coalesce` as used in `comments_before`: merge adjacent
`(start, end)` pairs whenever `end + 1 = start'`, compacting runs of
consecutive empty-line offsets into one pair. -/
def coalesce_runs : List (Nat × Nat) → List (Nat × Nat)
  | [] => []
  | x :: rest => coalesce_go x rest

/-- The merged offset-ordered sequence built inside `comments_before`:
comments tagged `some content`, coalesced empty-line runs tagged `none`. -/
def merged_before (comments : List Comment) (empty_lines : List Nat) (limit : Nat)
    (retain_empty_lines : Bool) : List (Nat × Option String) :=
  let end_comments := (comments.findIdx? (fun c => decide (limit < c.start))).getD comments.length
  let end_empty_lines := (empty_lines.findIdx? (fun l => decide (limit < l))).getD empty_lines.length
  let popped_comments := (comments.take end_comments).map (fun c => (c.start, some c.content))
  let popped_empty_lines :=
    (coalesce_runs (((if retain_empty_lines then empty_lines else []).take end_empty_lines).map
      (fun i => (i, i)))).map (fun l => (l.1, (none : Option String)))
  mergeBy (fun a b => decide (a.1 < b.1)) popped_comments popped_empty_lines

/-- `comments_before(comments, empty_lines, limit, retain_empty_lines)`:
returns the popped merged trivia (leading blank-line markers trimmed), the
remaining comments and the remaining empty-line offsets. -/
def comments_before (comments : List Comment) (empty_lines : List Nat) (limit : Nat)
    (retain_empty_lines : Bool) :
    List (Option String) × List Comment × List Nat :=
  let end_comments := (comments.findIdx? (fun c => decide (limit < c.start))).getD comments.length
  let end_empty_lines := (empty_lines.findIdx? (fun l => decide (limit < l))).getD empty_lines.length
  let popped :=
    ((merged_before comments empty_lines limit retain_empty_lines).dropWhile
      (fun x => x.2.isNone)).map (fun x => x.2)
  (popped, comments.drop end_comments, empty_lines.drop end_empty_lines)

/-! ### The trivia cursor operations (format.rs lines 92–135) -/

/-- `Formatter::any_comments`: is there a comment strictly before `limit`? -/
def Formatter.any_comments (self : Formatter) (limit : Nat) : Bool :=
  match self.comments.head? with
  | some c => decide (c.start < limit)
  | none => false

/-- `Formatter::pop_comments`: pop comments before `limit`, consuming and
retaining the empty lines contained within. -/
def Formatter.pop_comments (self : Formatter) (limit : Nat) :
    List (Option String) × Formatter :=
  let r := comments_before self.comments self.empty_lines limit true
  (r.1, { self with comments := r.2.1, empty_lines := r.2.2 })

/-- `Formatter::pop_doc_comments`: pop doc comments before `limit`, consuming
and dropping the empty lines contained within. -/
def Formatter.pop_doc_comments (self : Formatter) (limit : Nat) :
    List (Option String) × Formatter :=
  let r := comments_before self.doc_comments self.empty_lines limit false
  (r.1, { self with doc_comments := r.2.1, empty_lines := r.2.2 })

/-- `Formatter::pop_empty_lines`: remove the empty lines up to `limit`,
returning whether any were removed. -/
def Formatter.pop_empty_lines (self : Formatter) (limit : Nat) : Bool × Formatter :=
  let endIdx := (self.empty_lines.takeWhile (fun p => decide (p ≤ limit))).length
  (endIdx != 0, { self with empty_lines := self.empty_lines.drop endIdx })

def pop_commentsM (limit : Nat) : FmtM (List (Option String)) :=
  modifyGet (fun s => s.pop_comments limit)

def pop_doc_commentsM (limit : Nat) : FmtM (List (Option String)) :=
  modifyGet (fun s => s.pop_doc_comments limit)

def pop_empty_linesM (limit : Nat) : FmtM Bool :=
  modifyGet (fun s => s.pop_empty_lines limit)

def any_commentsM (limit : Nat) : FmtM Bool := do
  let s ← get
  pure (s.any_comments limit)

/-! ### Printing popped comment runs (format.rs lines 1722–1775) -/

mutual

/-- The document pieces accumulated by the `while let` loop of
`printed_comments`: skip `none` markers until the next comment. -/
def printed_comments_loop (trailing_newline : Bool) : List (Option String) → List Document
  | [] => []
  | none :: rest => printed_comments_loop trailing_newline rest
  | some c :: rest => printed_comments_run trailing_newline c rest

/-- Emit one comment's document, then place the separator decided by peeking
at what follows: another comment gives a single newline, a blank-line marker
followed by more items gives a double newline, and at the end of the run the
`trailing_newline` flag decides. -/
def printed_comments_run (trailing_newline : Bool) (c : String) :
    List (Option String) → List Document
  | [] =>
    (Document.Text "//").append (.Text c) :: (if trailing_newline then [line] else [])
  | some c2 :: rest =>
    (Document.Text "//").append (.Text c) :: line :: printed_comments_run trailing_newline c2 rest
  | none :: rest =>
    match rest with
    | [] => (Document.Text "//").append (.Text c) :: (if trailing_newline then [lines 2] else [])
    | _ :: _ =>
      (Document.Text "//").append (.Text c) :: lines 2 :: printed_comments_loop trailing_newline rest

end

/-- `printed_comments`: `none` when the popped run is empty, otherwise the
rendered comment block (force-broken when a trailing newline is wanted). -/
def printed_comments (comments : List (Option String)) (trailing_newline : Bool) :
    Option Document :=
  match comments with
  | [] => none
  | _ =>
    let doc := concat (printed_comments_loop trailing_newline comments)
    some (if trailing_newline then doc.force_break else doc)

/-- `commented(doc, comments)`: prepend a popped comment run to a document. -/
def commented (doc : Document) (comments : List (Option String)) : Document :=
  match printed_comments comments true with
  | some comments_doc => comments_doc.append doc.group
  | none => doc

/-! ## Literal canonicalization (format.rs lines 724–797) -/

/-- `Formatter::string`: wrap in quotes; a literal containing a newline
forces the enclosing group to break. -/
def Formatter.string (value : String) : Document :=
  let doc := (Document.Text value).surround "\"" "\""
  if value.toList.contains '\n' then doc.force_break else doc

/-- The character-pushing loop of `underscore_integer_string`, over the
reversed character list: `i` enumerates all characters (underscores
included), `j` counts the characters pushed so far. -/
def ui_push (insert_underscores : Bool) (len : Nat) : List Char → Nat → Nat → List Char
  | [], _, _ => []
  | ch :: rest, i, j =>
    if ch == '_' then ui_push insert_underscores len rest (i + 1) j
    else if insert_underscores && i != 0 && ch != '-' && decide (i < len) && j % 3 == 0 then
      '_' :: ch :: ui_push insert_underscores len rest (i + 1) (j + 1)
    else
      ch :: ui_push insert_underscores len rest (i + 1) (j + 1)

/-- `Formatter::underscore_integer_string`, at the character-list level:
decide the reformat watershed (6 when the literal starts with `-`, else 5),
then run the reversed pushing loop and reverse the result. -/
def underscore_integer_chars (value : List Char) : List Char :=
  let len := value.length
  let underscore_ch_cnt := (value.filter (fun ch => ch == '_')).length
  let reformat_watershed : Nat := if value.head? = some '-' then 6 else 5
  let insert_underscores := decide (reformat_watershed ≤ len - underscore_ch_cnt)
  (ui_push insert_underscores len value.reverse 0 0).reverse

/-- `Formatter::underscore_integer_string` as a document. -/
def underscore_integer_string (value : String) : Document :=
  .Text (String.mk (underscore_integer_chars value.toList))

/-- `str::starts_with`, at the character level. -/
def starts_with (value p : String) : Bool :=
  p.toList.isPrefixOf value.toList

/-- `Formatter::int`: hexadecimal/binary/octal literals pass through
verbatim, decimal literals get the underscore treatment. -/
def Formatter.int (value : String) : Document :=
  if starts_with value "0x" || starts_with value "0b" || starts_with value "0o" then
    .Text value
  else
    underscore_integer_string value

/-- Split a character list on a separator character, as `str::split`:
the result always has at least one (possibly empty) component. -/
def splitOnChar (c : Char) : List Char → List (List Char)
  | [] => [[]]
  | x :: xs =>
    if x == c then [] :: splitOnChar c xs
    else
      match splitOnChar c xs with
      | [] => [[x]]
      | h :: t => (x :: h) :: t

/-- `str::trim_end_matches('0')`: remove every trailing `'0'`. -/
def trimEndZeros (l : List Char) : List Char :=
  (l.reverse.dropWhile (fun ch => ch == '0')).reverse

/-- `Formatter::float`: split at the first `.`, split the fractional part at
the first `e`, trim trailing zeros from the fractional part (keeping at least
one digit), and reassemble with the scientific suffix verbatim. -/
def Formatter.float (value : String) : Document :=
  let parts := splitOnChar '.' value.toList
  let integer_part := parts.head?.getD []
  let fp_part := ((parts.drop 1).head?).getD []
  let integer_doc := underscore_integer_string (String.mk integer_part)
  let dot_doc := Document.Text "."
  let pos := (fp_part.findIdx? (fun ch => ch == 'e')).getD fp_part.length
  let fp_part_fractional := fp_part.take pos
  let fp_part_scientific := fp_part.drop pos
  let trimmed := trimEndZeros fp_part_fractional
  let fp2 := if trimmed = [] then ['0'] else trimmed
  ((integer_doc.append dot_doc).append (.Text (String.mk fp2))).append
    (.Text (String.mk fp_part_scientific))

/-- `pub_(public)`. -/
def pub_ (public : Bool) : Document :=
  if public then .Text "pub " else nil

/-! ## The AST (modelled from the spec and from its uses in format.rs) -/

/-- Modelled from the spec: the `(start, end)` byte span on every AST node
(the `end` field is called `stop` here because `end` is a Lean keyword). -/
structure SrcSpan where
  start : Nat
  stop : Nat
deriving DecidableEq

/-- Modelled from the spec: the internal variable name the parser gives to
the `_` placeholder of a capture (`ast::CAPTURE_VARIABLE`). -/
def CAPTURE_VARIABLE : String := "_capture"

/-- The binary operators, exactly the set matched by the `Documentable`
implementation in format.rs lines 1625–1653. -/
inductive BinOp where
  | And | Or | LtInt | LtEqInt | LtFloat | LtEqFloat | Eq | NotEq
  | GtEqInt | GtInt | GtEqFloat | GtFloat | AddInt | AddFloat | SubInt | SubFloat
  | MultInt | MultFloat | DivInt | DivFloat | RemainderInt | Concatenate
deriving DecidableEq

/-- `impl Documentable for &BinOp` (format.rs lines 1625–1653): each operator
prints with one surrounding space on each side. -/
def BinOp.to_doc (b : BinOp) : Document :=
  .Text (match b with
    | .And => " && "
    | .Or => " || "
    | .LtInt => " < "
    | .LtEqInt => " <= "
    | .LtFloat => " <. "
    | .LtEqFloat => " <=. "
    | .Eq => " == "
    | .NotEq => " != "
    | .GtEqInt => " >= "
    | .GtInt => " > "
    | .GtEqFloat => " >=. "
    | .GtFloat => " >. "
    | .AddInt => " + "
    | .AddFloat => " +. "
    | .SubInt => " - "
    | .SubFloat => " -. "
    | .MultInt => " * "
    | .MultFloat => " *. "
    | .DivInt => " / "
    | .DivFloat => " /. "
    | .RemainderInt => " % "
    | .Concatenate => " <> ")

/-- Modelled from the spec: `BinOp::precedence` — each operator carries a
`u8` precedence, multiplication binding tighter than addition; the pipe
operator's precedence is 6, matching the constants 5 and 4 used by
`Formatter::pipeline`.  All values are at least 1. -/
def BinOp.precedence : BinOp → Nat
  | .Or => 1
  | .And => 2
  | .Eq | .NotEq => 3
  | .LtInt | .LtEqInt | .LtFloat | .LtEqFloat
  | .GtEqInt | .GtInt | .GtEqFloat | .GtFloat => 4
  | .Concatenate => 5
  | .AddInt | .AddFloat | .SubInt | .SubFloat => 7
  | .MultInt | .MultFloat | .DivInt | .DivFloat | .RemainderInt => 8

mutual

/-- Modelled from the spec: the untyped expression AST, restricted to the
syntactic forms exercised by the claims under verification (the remaining
variants — blocks, cases, lists, tuples, bit arrays, record updates,
negations, todo/panic — are lowered by independent match arms of
`Formatter::expr` and play no role in those claims).  `Fn` is modelled in
its `is_capture: true` form only, and `PipeLine`'s `Vec1` of expressions is
modelled as a first element plus the rest. -/
inductive UntypedExpr where
  | Placeholder (location : SrcSpan) : UntypedExpr
  | Int (location : SrcSpan) (value : String) : UntypedExpr
  | Float (location : SrcSpan) (value : String) : UntypedExpr
  | String (location : SrcSpan) (value : String) : UntypedExpr
  | Var (location : SrcSpan) (name : String) : UntypedExpr
  | BinOp (location : SrcSpan) (name : BinOp) (left right : UntypedExpr) : UntypedExpr
  | PipeLine (first : UntypedExpr) (rest : List UntypedExpr) : UntypedExpr
  | Call (location : SrcSpan) (f : UntypedExpr) (args : List CallArg) : UntypedExpr
  | Fn (location : SrcSpan) (body : List Statement) : UntypedExpr

/-- Modelled from the spec: a call argument with an optional label. -/
inductive CallArg where
  | mk (label : Option String) (location : SrcSpan) (value : UntypedExpr) : CallArg

/-- Modelled from the spec: a statement — only expression statements carry
data the formatter claims need; assignments and `use` statements appear only
as the impossible shapes of a capture body. -/
inductive Statement where
  | Expression (e : UntypedExpr) : Statement
  | Assignment : Statement
  | Use : Statement

end

def CallArg.label : CallArg → Option String
  | .mk l _ _ => l

def CallArg.location : CallArg → SrcSpan
  | .mk _ l _ => l

def CallArg.value : CallArg → UntypedExpr
  | .mk _ _ v => v

/-- Modelled from the spec: `CallArg::is_capture_hole`. -/
def CallArg.is_capture_hole (a : CallArg) : Bool :=
  match a.value with
  | .Var _ n => n == CAPTURE_VARIABLE
  | _ => false

/-- Modelled from the spec: every node carries its source span; a pipeline's
span is taken from its first expression (no claim inspects it). -/
def UntypedExpr.location : UntypedExpr → SrcSpan
  | .Placeholder l => l
  | .Int l _ => l
  | .Float l _ => l
  | .String l _ => l
  | .Var l _ => l
  | .BinOp l _ _ _ => l
  | .PipeLine first _ => first.location
  | .Call l _ _ => l
  | .Fn l _ => l

/-- Modelled from the spec: `UntypedExpr::start_byte_index` — a pipeline
starts where its first expression starts. -/
def UntypedExpr.start_byte_index : UntypedExpr → Nat
  | .PipeLine first _ => first.start_byte_index
  | e => e.location.start

/-- Modelled from the spec: `UntypedExpr::binop_precedence` — binary
operators report their operator's precedence, pipelines bind at 5, and every
other expression is atomic (`u8::MAX` = 255). -/
def UntypedExpr.binop_precedence : UntypedExpr → Nat
  | .BinOp _ name _ _ => name.precedence
  | .PipeLine _ _ => 5
  | _ => 255

/-- `is_breakable_expr` (format.rs lines 1887–1898), restricted to the
modelled variants: of those, `Fn` and `Call` are breakable. -/
def is_breakable_expr : UntypedExpr → Bool
  | .Fn _ _ => true
  | .Call _ _ _ => true
  | _ => false

/-! ## Document-building helpers (format.rs lines 1655–1720) -/

/-- `break_block(doc)`: a block that always breaks. -/
def break_block (doc : Document) : Document :=
  ((((Document.Text "\x7b").append ((line.append doc).nest INDENT)).append line).append
    (.Text "\x7d")).force_break

/-- `wrap_block(doc)`: `{ doc }` with conditional breaks. -/
def wrap_block (doc : Document) : Document :=
  ((((break_ "\x7b" "\x7b ").append doc).nest INDENT).append (break_ "" " ")).append
    (.Text "\x7d")

/-- `wrap_args(args)`: `()` when empty, otherwise a conditionally-broken
argument list with a trailing comma in broken mode. -/
def wrap_args (args : List Document) : Document :=
  match args with
  | [] => .Text "()"
  | _ =>
    ((((break_ "(" "(").append (join args (break_ "," ", "))).nest INDENT).append
      (break_ "," "")).append (.Text ")")

/-- `Formatter::operator_side` (format.rs lines 945–951): wrap the operand in
a block when the required precedence `op` exceeds the operand's own
precedence `side`. -/
def operator_side (doc : Document) (op side : Nat) : Document :=
  if side < op then (wrap_block doc).group else doc

/-! ## The expression formatter (format.rs lines 626–1047) -/

mutual

/-- `Formatter::expr`: pop the comments preceding the expression, lower it,
and reattach the comments.  A placeholder reaching this point is a fatal
invariant violation. -/
def Formatter.expr (e : UntypedExpr) : FmtM Document := do
  let comments ← pop_commentsM e.start_byte_index
  match e with
  | .Placeholder _ => throw (.fatal "Placeholders should not be formatted")
  | .PipeLine first rest => do
    let document ← Formatter.pipeline first rest
    pure (commented document comments)
  | .Int _ value => pure (commented (Formatter.int value) comments)
  | .Float _ value => pure (commented (Formatter.float value) comments)
  | .String _ value => pure (commented (Formatter.string value) comments)
  | .Var _ name =>
    pure (commented
      (if name = CAPTURE_VARIABLE then Document.Text "_" else Document.Text name) comments)
  | .Fn _ body => do
    let document ← Formatter.fn_capture body
    pure (commented document comments)
  | .Call _ f args => do
    let document ← Formatter.call f args
    pure (commented document comments)
  | .BinOp _ name left right => do
    let document ← Formatter.bin_op name left right
    pure (commented document comments)
  termination_by sizeOf e
  decreasing_by all_goals first
    | (simp_arith; done)
    | omega
    | ((have h3 : 0 < sizeOf right := by cases right <;> simp_arith); omega)
    | ((have h3 : 0 < sizeOf left := by cases left <;> simp_arith); omega)
    | ((have h3 : 0 < sizeOf f := by cases f <;> simp_arith); omega)
    | ((have h3 : 0 < sizeOf first := by cases first <;> simp_arith); omega)
    | ((have h3 : 0 < sizeOf args := by cases args <;> simp_arith); omega)
    | ((have h3 : 0 < sizeOf rest := by cases rest <;> simp_arith); omega)
    | ((have h3 : 0 < sizeOf args := by cases args <;> simp_arith); simp_arith; omega)
    | ((have h3 : 0 < sizeOf f := by cases f <;> simp_arith); simp_arith; omega)
    | ((have h2 : sizeOf (List.drop 1 args) ≤ sizeOf args := by
          cases args <;> simp_arith); simp_arith at h2 ⊢; omega)

/-- `Formatter::call` (format.rs lines 844–883). -/
def Formatter.call (f : UntypedExpr) (args : List CallArg) : FmtM Document := do
  let e ← match f with
    | .Placeholder _ => throw (.fatal "Placeholders should not be formatted")
    | .PipeLine pf pr => do
      let d ← Formatter.expr (.PipeLine pf pr)
      pure (break_block d)
    | .BinOp l n a b => Formatter.expr (.BinOp l n a b)
    | .Int l v => Formatter.expr (.Int l v)
    | .Float l v => Formatter.expr (.Float l v)
    | .String l v => Formatter.expr (.String l v)
    | .Var l v => Formatter.expr (.Var l v)
    | .Fn l b => Formatter.expr (.Fn l b)
    | .Call l g a => Formatter.expr (.Call l g a)
  match args with
  | [arg] => do
    let ac ← any_commentsM arg.location.start
    if is_breakable_expr arg.value && !ac then do
      let d ← Formatter.call_arg arg
      pure ((((e.append (.Text "(")).append d).append (.Text ")")).group)
    else do
      let ds ← Formatter.call_args_docs [arg]
      pure ((e.append ((wrap_args ds).group)).group)
  | other => do
    let ds ← Formatter.call_args_docs other
    pure ((e.append ((wrap_args ds).group)).group)
  termination_by sizeOf f + sizeOf args
  decreasing_by all_goals first
    | (simp_arith; done)
    | omega
    | ((have h3 : 0 < sizeOf right := by cases right <;> simp_arith); omega)
    | ((have h3 : 0 < sizeOf left := by cases left <;> simp_arith); omega)
    | ((have h3 : 0 < sizeOf f := by cases f <;> simp_arith); omega)
    | ((have h3 : 0 < sizeOf first := by cases first <;> simp_arith); omega)
    | ((have h3 : 0 < sizeOf args := by cases args <;> simp_arith); omega)
    | ((have h3 : 0 < sizeOf rest := by cases rest <;> simp_arith); omega)
    | ((have h3 : 0 < sizeOf args := by cases args <;> simp_arith); simp_arith; omega)
    | ((have h3 : 0 < sizeOf f := by cases f <;> simp_arith); simp_arith; omega)
    | ((have h2 : sizeOf (List.drop 1 args) ≤ sizeOf args := by
          cases args <;> simp_arith); simp_arith at h2 ⊢; omega)

/-- `Formatter::call_arg` (format.rs lines 1181–1190). -/
def Formatter.call_arg : CallArg → FmtM Document
  | .mk label location value => do
    let head ← match label with
      | some s => do
        let comments ← pop_commentsM location.start
        pure (commented ((Document.Text s).append (.Text ": ")) comments)
      | none => pure nil
    let v ← Formatter.expr value
    pure (head.append v)
  termination_by a => sizeOf a
  decreasing_by all_goals first
    | (simp_arith; done)
    | omega
    | ((have h3 : 0 < sizeOf right := by cases right <;> simp_arith); omega)
    | ((have h3 : 0 < sizeOf left := by cases left <;> simp_arith); omega)
    | ((have h3 : 0 < sizeOf f := by cases f <;> simp_arith); omega)
    | ((have h3 : 0 < sizeOf first := by cases first <;> simp_arith); omega)
    | ((have h3 : 0 < sizeOf args := by cases args <;> simp_arith); omega)
    | ((have h3 : 0 < sizeOf rest := by cases rest <;> simp_arith); omega)
    | ((have h3 : 0 < sizeOf args := by cases args <;> simp_arith); simp_arith; omega)
    | ((have h3 : 0 < sizeOf f := by cases f <;> simp_arith); simp_arith; omega)
    | ((have h2 : sizeOf (List.drop 1 args) ≤ sizeOf args := by
          cases args <;> simp_arith); simp_arith at h2 ⊢; omega)

/-- The left-to-right mapping of `call_arg` over an argument list
(`args.iter().map(|a| self.call_arg(a))`). -/
def Formatter.call_args_docs : List CallArg → FmtM (List Document)
  | [] => pure []
  | a :: rest => do
    let d ← Formatter.call_arg a
    let ds ← Formatter.call_args_docs rest
    pure (d :: ds)
  termination_by l => sizeOf l
  decreasing_by all_goals first
    | (simp_arith; done)
    | omega
    | ((have h3 : 0 < sizeOf right := by cases right <;> simp_arith); omega)
    | ((have h3 : 0 < sizeOf left := by cases left <;> simp_arith); omega)
    | ((have h3 : 0 < sizeOf f := by cases f <;> simp_arith); omega)
    | ((have h3 : 0 < sizeOf first := by cases first <;> simp_arith); omega)
    | ((have h3 : 0 < sizeOf args := by cases args <;> simp_arith); omega)
    | ((have h3 : 0 < sizeOf rest := by cases rest <;> simp_arith); omega)
    | ((have h3 : 0 < sizeOf args := by cases args <;> simp_arith); simp_arith; omega)
    | ((have h3 : 0 < sizeOf f := by cases f <;> simp_arith); simp_arith; omega)
    | ((have h2 : sizeOf (List.drop 1 args) ≤ sizeOf args := by
          cases args <;> simp_arith); simp_arith at h2 ⊢; omega)

/-- `Formatter::bin_op` (format.rs lines 929–943). -/
def Formatter.bin_op (name : BinOp) (left right : UntypedExpr) : FmtM Document := do
  let precedence := name.precedence
  let left_precedence := left.binop_precedence
  let right_precedence := right.binop_precedence
  let l ← Formatter.expr left
  let r ← Formatter.expr right
  pure (((operator_side l precedence left_precedence).append name.to_doc).append
    (operator_side r precedence (right_precedence - 1)))
  termination_by sizeOf left + sizeOf right
  decreasing_by all_goals first
    | (simp_arith; done)
    | omega
    | ((have h3 : 0 < sizeOf right := by cases right <;> simp_arith); omega)
    | ((have h3 : 0 < sizeOf left := by cases left <;> simp_arith); omega)
    | ((have h3 : 0 < sizeOf f := by cases f <;> simp_arith); omega)
    | ((have h3 : 0 < sizeOf first := by cases first <;> simp_arith); omega)
    | ((have h3 : 0 < sizeOf args := by cases args <;> simp_arith); omega)
    | ((have h3 : 0 < sizeOf rest := by cases rest <;> simp_arith); omega)
    | ((have h3 : 0 < sizeOf args := by cases args <;> simp_arith); simp_arith; omega)
    | ((have h3 : 0 < sizeOf f := by cases f <;> simp_arith); simp_arith; omega)
    | ((have h2 : sizeOf (List.drop 1 args) ≤ sizeOf args := by
          cases args <;> simp_arith); simp_arith at h2 ⊢; omega)

/-- `Formatter::pipeline` (format.rs lines 953–985). -/
def Formatter.pipeline (first : UntypedExpr) (rest : List UntypedExpr) : FmtM Document := do
  let first_precedence := first.binop_precedence
  let f ← Formatter.expr first
  let head := operator_side f 5 first_precedence
  let docs ← Formatter.pipeline_stages rest
  pure ((concat (head :: docs)).force_break)
  termination_by sizeOf first + sizeOf rest
  decreasing_by all_goals first
    | (simp_arith; done)
    | omega
    | ((have h3 : 0 < sizeOf right := by cases right <;> simp_arith); omega)
    | ((have h3 : 0 < sizeOf left := by cases left <;> simp_arith); omega)
    | ((have h3 : 0 < sizeOf f := by cases f <;> simp_arith); omega)
    | ((have h3 : 0 < sizeOf first := by cases first <;> simp_arith); omega)
    | ((have h3 : 0 < sizeOf args := by cases args <;> simp_arith); omega)
    | ((have h3 : 0 < sizeOf rest := by cases rest <;> simp_arith); omega)
    | ((have h3 : 0 < sizeOf args := by cases args <;> simp_arith); simp_arith; omega)
    | ((have h3 : 0 < sizeOf f := by cases f <;> simp_arith); simp_arith; omega)
    | ((have h2 : sizeOf (List.drop 1 args) ≤ sizeOf args := by
          cases args <;> simp_arith); simp_arith at h2 ⊢; omega)

/-- The per-stage loop of `Formatter::pipeline`: for each stage pop its
comments, lower it (rewriting captures through
`pipe_capture_right_hand_side`), and emit `line`, the commented `|> `
marker and the precedence-wrapped stage document. -/
def Formatter.pipeline_stages : List UntypedExpr → FmtM (List Document)
  | [] => pure []
  | e :: rest => do
    let comments ← pop_commentsM e.location.start
    let doc ← match e with
      | .Fn _ body =>
        match body with
        | .Expression expression :: _ => Formatter.pipe_capture_right_hand_side expression
        | _ => throw (.fatal "Non expression capture body")
      | other => Formatter.expr other
    let tail ← Formatter.pipeline_stages rest
    pure (line :: commented (.Text "|> ") comments ::
      operator_side doc 4 e.binop_precedence :: tail)
  termination_by l => sizeOf l
  decreasing_by all_goals first
    | (simp_arith; done)
    | omega
    | ((have h3 : 0 < sizeOf right := by cases right <;> simp_arith); omega)
    | ((have h3 : 0 < sizeOf left := by cases left <;> simp_arith); omega)
    | ((have h3 : 0 < sizeOf f := by cases f <;> simp_arith); omega)
    | ((have h3 : 0 < sizeOf first := by cases first <;> simp_arith); omega)
    | ((have h3 : 0 < sizeOf args := by cases args <;> simp_arith); omega)
    | ((have h3 : 0 < sizeOf rest := by cases rest <;> simp_arith); omega)
    | ((have h3 : 0 < sizeOf args := by cases args <;> simp_arith); simp_arith; omega)
    | ((have h3 : 0 < sizeOf f := by cases f <;> simp_arith); simp_arith; omega)
    | ((have h2 : sizeOf (List.drop 1 args) ≤ sizeOf args := by
          cases args <;> simp_arith); simp_arith at h2 ⊢; omega)

/-- `Formatter::pipe_capture_right_hand_side` (format.rs lines 987–1017). -/
def Formatter.pipe_capture_right_hand_side (f : UntypedExpr) : FmtM Document :=
  match f with
  | .Call _ f2 args => do
    let hole_in_first_position :=
      match args.head? with
      | some a =>
        match a.value with
        | .Var _ n => n == CAPTURE_VARIABLE
        | _ => false
      | none => false
    if hole_in_first_position && args.length == 1 then
      Formatter.expr f2
    else if hole_in_first_position then do
      let d ← Formatter.expr f2
      let ds ← Formatter.call_args_docs (args.drop 1)
      pure (d.append ((wrap_args ds).group))
    else do
      let d ← Formatter.expr f2
      let ds ← Formatter.call_args_docs args
      pure (d.append ((wrap_args ds).group))
  | _ =>
    throw (.fatal "Function capture found not to have a function call body when formatting")
  termination_by sizeOf f
  decreasing_by all_goals first
    | (simp_arith; done)
    | omega
    | ((have h3 : 0 < sizeOf right := by cases right <;> simp_arith); omega)
    | ((have h3 : 0 < sizeOf left := by cases left <;> simp_arith); omega)
    | ((have h3 : 0 < sizeOf f := by cases f <;> simp_arith); omega)
    | ((have h3 : 0 < sizeOf first := by cases first <;> simp_arith); omega)
    | ((have h3 : 0 < sizeOf args := by cases args <;> simp_arith); omega)
    | ((have h3 : 0 < sizeOf rest := by cases rest <;> simp_arith); omega)
    | ((have h3 : 0 < sizeOf args := by cases args <;> simp_arith); simp_arith; omega)
    | ((have h3 : 0 < sizeOf f := by cases f <;> simp_arith); simp_arith; omega)
    | ((have h2 : sizeOf (List.drop 1 args) ≤ sizeOf args := by
          cases args <;> simp_arith); simp_arith at h2 ⊢; omega)

/-- `Formatter::fn_capture` (format.rs lines 1019–1047). -/
def Formatter.fn_capture (call : List Statement) : FmtM Document := do
  if call.length != 1 then
    throw (.fatal "Function capture found not to have a single statement call")
  else
    match call with
    | .Expression (.Call _ f args) :: _ =>
      match args with
      | [first, second] =>
        if is_breakable_expr second.value && first.is_capture_hole then do
          let d ← Formatter.expr f
          let sd ← Formatter.call_arg second
          pure ((((d.append (.Text "(_, ")).append sd).append (.Text ")")).group)
        else do
          let d ← Formatter.expr f
          let ds ← Formatter.call_args_docs [first, second]
          pure (d.append ((wrap_args ds).group))
      | other => do
        let d ← Formatter.expr f
        let ds ← Formatter.call_args_docs other
        pure (d.append ((wrap_args ds).group))
    | _ => throw (.fatal "Function capture body found not to be a call in the formatter")
  termination_by sizeOf call
  decreasing_by all_goals first
    | (simp_arith; done)
    | omega
    | ((have h3 : 0 < sizeOf right := by cases right <;> simp_arith); omega)
    | ((have h3 : 0 < sizeOf left := by cases left <;> simp_arith); omega)
    | ((have h3 : 0 < sizeOf f := by cases f <;> simp_arith); omega)
    | ((have h3 : 0 < sizeOf first := by cases first <;> simp_arith); omega)
    | ((have h3 : 0 < sizeOf args := by cases args <;> simp_arith); omega)
    | ((have h3 : 0 < sizeOf rest := by cases rest <;> simp_arith); omega)
    | ((have h3 : 0 < sizeOf args := by cases args <;> simp_arith); simp_arith; omega)
    | ((have h3 : 0 < sizeOf f := by cases f <;> simp_arith); simp_arith; omega)
    | ((have h2 : sizeOf (List.drop 1 args) ≤ sizeOf args := by
          cases args <;> simp_arith); simp_arith at h2 ⊢; omega)

end

/-! ## Definitions and the module walk (format.rs lines 137–275, 277–345) -/

/-- Modelled from the spec: an unqualified import item with an optional
`as` alias. -/
structure UnqualifiedImport where
  name : String
  as_name : Option String
deriving DecidableEq

/-- `impl Documentable for &UnqualifiedImport` (format.rs lines 1616–1623). -/
def UnqualifiedImport.to_doc (i : UnqualifiedImport) : Document :=
  (Document.Text i.name).append
    (match i.as_name with
     | none => nil
     | some s => (Document.Text " as ").append (.Text s))

/-- Modelled from the spec: a variable or discard binding name. -/
inductive AssignName where
  | Variable (n : String) : AssignName
  | Discard (n : String) : AssignName
deriving DecidableEq

/-- Modelled from the spec: the fields of an `Import` definition read by the
formatter (`module`, `as_name`, `unqualified_values`, `unqualified_types`). -/
structure ImportDef where
  location : SrcSpan
  module : String
  as_name : Option (AssignName × SrcSpan)
  unqualified_values : List UnqualifiedImport
  unqualified_types : List UnqualifiedImport
deriving DecidableEq

/-- Modelled from the spec: constants, restricted to the scalar forms (the
collection forms are independent match arms of `const_expr` and are not
needed by the claims). -/
inductive Constant where
  | Int (location : SrcSpan) (value : String) : Constant
  | Float (location : SrcSpan) (value : String) : Constant
  | String (location : SrcSpan) (value : String) : Constant
  | Var (location : SrcSpan) (name : String) : Constant
deriving DecidableEq

/-- Modelled from the spec: a module constant (the optional type annotation
is not modelled). -/
structure ModuleConstantDef where
  location : SrcSpan
  public : Bool
  name : String
  value : Constant
deriving DecidableEq

/-- Modelled from the spec: the definition forms needed by the claims —
imports and module constants (functions, type aliases and custom types are
independent arms of `Formatter::definition`). -/
inductive Definition where
  | Import (i : ImportDef) : Definition
  | ModuleConstant (c : ModuleConstantDef) : Definition
deriving DecidableEq

/-- Modelled from the spec: `Definition::is_import`. -/
def Definition.is_import : Definition → Bool
  | .Import _ => true
  | .ModuleConstant _ => false

def Definition.location : Definition → SrcSpan
  | .Import i => i.location
  | .ModuleConstant c => c.location

/-- The compile targets (`build::Target`). -/
inductive Target where
  | Erlang : Target
  | JavaScript : Target
deriving DecidableEq

/-- A definition together with its optional target restriction. -/
structure TargetedDefinition where
  target : Option Target
  definition : Definition
deriving DecidableEq

/-- A module is its list of targeted definitions. -/
structure UntypedModule where
  definitions : List TargetedDefinition
deriving DecidableEq

/-- `Formatter::const_expr`, restricted to the modelled constant forms. -/
def Formatter.const_expr (value : Constant) : Document :=
  match value with
  | .Int _ v => Formatter.int v
  | .Float _ v => Formatter.float v
  | .String _ v => Formatter.string v
  | .Var _ name => .Text name

/-- Byte-lexicographic order on character lists, the order `str::cmp` gives
on ASCII names. -/
def lexLe : List Char → List Char → Bool
  | [], _ => true
  | _ :: _, [] => false
  | x :: xs, y :: ys => if x = y then lexLe xs ys else decide (x < y)

def name_le (a b : UnqualifiedImport) : Bool :=
  lexLe a.name.toList b.name.toList

/-- The name order as a propositional relation. -/
def NameLe (a b : UnqualifiedImport) : Prop := name_le a b = true

instance : DecidableRel NameLe := fun a b => by
  unfold NameLe; infer_instance

/-- `iter().sorted_by(|a, b| a.name.cmp(&b.name))`: a stable sort of the
unqualified imports by imported name (modelled by a stable insertion sort —
every stable sort computes the same list). -/
def sorted_by_name (l : List UnqualifiedImport) : List UnqualifiedImport :=
  l.insertionSort NameLe

/-- `Formatter::definition` (format.rs lines 207–275), for the modelled
definition forms.  The import arm sorts the unqualified types and values by
name and prints the types (prefixed `type `) before the values. -/
def Formatter.definition (statement : Definition) : FmtM Document := do
  match statement with
  | .Import i =>
    let second :=
      if i.unqualified_values.isEmpty && i.unqualified_types.isEmpty then nil
      else
        let unqualified_types := (sorted_by_name i.unqualified_types).map
          (fun e => (Document.Text "type ").append e.to_doc)
        let unqualified_values := (sorted_by_name i.unqualified_values).map
          (fun e => e.to_doc)
        let unqualified :=
          intersperse (unqualified_types ++ unqualified_values) (flex_break "," ", ")
        let unqualified :=
          ((((break_ "" "").append (concat unqualified)).nest INDENT).append
            (break_ "," "")).group
        ((Document.Text ".\x7b").append unqualified).append (.Text "\x7d")
    let doc := ((Document.Text "import ").append (.Text i.module)).append second
    match i.as_name with
    | some (AssignName.Variable name, _) =>
      pure ((doc.append (.Text " as ")).append (.Text name))
    | some (AssignName.Discard name, _) =>
      pure ((doc.append (.Text " as ")).append (.Text name))
    | none => pure doc
  | .ModuleConstant c =>
    let head := ((pub_ c.public).append (.Text "const ")).append (.Text c.name)
    pure ((head.append (.Text " = ")).append (Formatter.const_expr c.value))

/-- `Formatter::doc_comments` (format.rs lines 389–403); named
`doc_comments_doc` because `doc_comments` is the cursor field.  A blank-line
marker surviving `pop_doc_comments` is the source's `unreachable!`. -/
def Formatter.doc_comments_doc (limit : Nat) : FmtM Document := do
  let comments ← pop_doc_commentsM limit
  match comments with
  | [] => pure nil
  | _ => do
    let docs ← comments.mapM (fun c =>
      match c with
      | some c => pure ((Document.Text "///").append (.Text c))
      | none =>
        throw ((Fatal.fatal "empty lines dropped by pop_doc_comments") :
          Fatal))
    pure (((join docs line).append line).force_break)

/-- `Formatter::documented_definition` (format.rs lines 384–387). -/
def Formatter.documented_definition (s : Definition) : FmtM Document := do
  let comments ← Formatter.doc_comments_doc s.location.start
  let d ← Formatter.definition s
  pure ((comments.append d.group).group)

/-- `Formatter::targeted_definition` (format.rs lines 137–149). -/
def Formatter.targeted_definition (definition : TargetedDefinition) : FmtM Document := do
  let target := definition.target
  let d := definition.definition
  let start := d.location.start
  let comments ← pop_commentsM start
  let document ← Formatter.documented_definition d
  let document :=
    match target with
    | none => document
    | some Target.Erlang => ((Document.Text "@target(erlang)").append line).append document
    | some Target.JavaScript =>
      ((Document.Text "@target(javascript)").append line).append document
  pure (commented document comments)

/-- The continuation of the definition loop of `Formatter::module` once the
first definition has been emitted: between the previous definition and the
next one push `lines 1` when both are imports and `lines 2` otherwise. -/
def Formatter.module_documents_loop (previous_was_import : Bool) :
    List TargetedDefinition → FmtM (List Document)
  | [] => pure []
  | d :: rest => do
    let is_import := d.definition.is_import
    let sep := if previous_was_import && is_import then lines 1 else lines 2
    let document ← Formatter.targeted_definition d
    let tail ← Formatter.module_documents_loop is_import rest
    pure (sep :: document :: tail)

/-- The definition loop of `Formatter::module` (format.rs lines 152–168): no
separator is pushed before the first definition. -/
def Formatter.module_documents : List TargetedDefinition → FmtM (List Document)
  | [] => pure []
  | d :: rest => do
    let document ← Formatter.targeted_definition d
    let tail ← Formatter.module_documents_loop d.definition.is_import rest
    pure (document :: tail)

/-- `Formatter::module` (format.rs lines 151–205). -/
def Formatter.module (module : UntypedModule) : FmtM Document := do
  let documents ← Formatter.module_documents module.definitions
  let definitions := concat documents
  let s ← get
  let doc_comments :=
    join (s.doc_comments.map (fun comment =>
      (Document.Text "///").append (.Text comment.content))) line
  let popped ← pop_commentsM 4294967295
  let comments :=
    match printed_comments popped false with
    | some comments => comments
    | none => nil
  let module_comments :=
    if !s.module_comments.isEmpty then
      (join (s.module_comments.map (fun c =>
        (Document.Text "////").append (.Text c.content))) line).append line
    else nil
  let non_empty :=
    [module_comments, definitions, doc_comments, comments].filter
      (fun doc => !doc.is_empty)
  pure ((join non_empty line).append line)

/-! ## Claim-side specification definitions -/

/-- Spec-side regrouping function for the amended claim C4: walking the
digit characters from the least-significant end (the list argument is the
reversed, underscore-stripped literal), insert an underscore before every
digit whose emitted index is a positive multiple of three, never adjacent to
a sign character. -/
def spec_regroup_rev : List Char → Nat → List Char
  | [], _ => []
  | c :: rest, j =>
    if c != '-' && j != 0 && j % 3 == 0 then
      '_' :: c :: spec_regroup_rev rest (j + 1)
    else
      c :: spec_regroup_rev rest (j + 1)

/-- The insertion condition exactly as claim C4 states it: at least five
significant digits, at least six when the literal is negative. -/
def c4_claimed_condition (v : List Char) : Prop :=
  (v.head? ≠ some '-' ∧ 5 ≤ (v.filter (fun c => c.isDigit)).length) ∨
  (v.head? = some '-' ∧ 6 ≤ (v.filter (fun c => c.isDigit)).length)

instance (v : List Char) : Decidable (c4_claimed_condition v) := by
  unfold c4_claimed_condition; infer_instance

/-- The zero source span used by concrete examples. -/
def sp : SrcSpan := ⟨0, 0⟩

/-- Run a formatter computation on the empty trivia state and render the
resulting document at the fixed width of 80 columns. -/
def render_result (m : FmtM Document) : Except Fatal String :=
  (m.run Formatter.new).map (fun p => renderDoc p.1)


/-- The claim's "capture placeholder is the first argument" condition,
exactly as `pipe_capture_right_hand_side` tests it. -/
def capture_hole_first (args : List CallArg) : Bool :=
  match args.head? with
  | some a =>
    match a.value with
    | .Var _ n => n == CAPTURE_VARIABLE
    | _ => false
  | none => false


/-- Is the expression a function call? (`UntypedExpr::Call` test used by
claim C9's "body is not a function call".) -/
def isCall : UntypedExpr → Bool
  | .Call _ _ _ => true
  | _ => false


/-- The separator claim C8 prescribes between two consecutive definitions:
no blank line (a single newline) when both are imports, exactly one blank
line (a double newline) otherwise. -/
def c8_separator (a b : TargetedDefinition) : Document :=
  if a.definition.is_import && b.definition.is_import then lines 1 else lines 2

/-- The claim-side module walk, phrased pairwise: each definition after the
first is preceded by the separator determined by it and its predecessor. -/
def module_documents_claim_rest (prev : TargetedDefinition) :
    List TargetedDefinition → FmtM (List Document)
  | [] => pure []
  | d :: rest => do
    let doc ← Formatter.targeted_definition d
    let tail ← module_documents_claim_rest d rest
    pure (c8_separator prev d :: doc :: tail)

/-- The claim-side module walk: no separator before the first definition. -/
def module_documents_claim : List TargetedDefinition → FmtM (List Document)
  | [] => pure []
  | d :: rest => do
    let doc ← Formatter.targeted_definition d
    let tail ← module_documents_claim_rest d rest
    pure (doc :: tail)

/-! ## Theorems -/

/-- The pushing loop of `underscore_integer_string` computes the spec-side
regrouping of the underscore-stripped characters (or the plain strip when
`insert_underscores` is off), for any suffix of the reversed literal with a
consistent cursor state. -/
theorem ui_push_eq_spec (insert : Bool) (len : Nat) :
    ∀ (l : List Char) (i j : Nat), i + l.length ≤ len → j ≤ i → (j = 0 → i = 0) →
      (j = 0 → l.head? ≠ some '_') →
      ui_push insert len l i j =
        (if insert then spec_regroup_rev (l.filter (fun c => c != '_')) j
         else l.filter (fun c => c != '_'))
  | [], i, j, _, _, _, _ => by
    simp [ui_push, spec_regroup_rev]
  | ch :: rest, i, j, hlen, hji, hj0, hhead => by
    have hlen' : i + 1 + rest.length ≤ len := by
      simp only [List.length_cons] at hlen; omega
    by_cases hch : ch = '_'
    · subst hch
      have hj : j ≠ 0 := fun h => hhead h rfl
      have IH := ui_push_eq_spec insert len rest (i + 1) j hlen' (by omega)
        (fun h => absurd h hj) (fun h => absurd h hj)
      rw [ui_push]
      simp only [beq_self_eq_true, if_true, IH]
      simp
    · have hne : (ch == '_') = false := by simp [hch]
      have IH := ui_push_eq_spec insert len rest (i + 1) (j + 1) hlen' (by omega)
        (fun h => absurd h (by omega)) (fun h => absurd h (by omega))
      have hij : (i != 0) = (j != 0) := by
        rcases Nat.eq_zero_or_pos j with hj | hj
        · have hi := hj0 hj
          subst hj; subst hi; rfl
        · have hb1 : (i != 0) = true := by
            have : i ≠ 0 := by omega
            simp [this]
          have hb2 : (j != 0) = true := by
            have : j ≠ 0 := by omega
            simp [this]
          rw [hb1, hb2]
      have hlt : (decide (i < len)) = true := by
        simp only [decide_eq_true_eq]
        simp only [List.length_cons] at hlen
        omega
      have hfil : List.filter (fun c => c != '_') (ch :: rest)
          = ch :: List.filter (fun c => c != '_') rest := by
        simp [List.filter_cons, hch]
      rw [ui_push]
      simp only [hne, hij, hlt, Bool.and_true, IH, hfil]
      cases insert with
      | false => simp
      | true =>
        rw [spec_regroup_rev]
        by_cases h1 : ch = '-'
        · simp [h1]
        · by_cases h2 : j = 0
          · subst h2; simp [h1]
          · by_cases h3 : j % 3 = 0
            · simp [h1, h2, h3]
            · simp [h1, h2, h3]

/-- Claim C4 fails as stated: the negative literal `-12345` has only five
significant digits, yet the formatter regroups it to `-12_345` — the code's
watershed of 6 counts the minus sign as a character, so five digits suffice
for a negative literal too. -/
theorem format_c4_counterexample :
    Formatter.int "-12345" = .Text "-12_345" ∧
    underscore_integer_chars "-12345".toList = "-12_345".toList ∧
    ¬ c4_claimed_condition "-12345".toList := by
  refine ⟨by decide, by decide, by decide⟩

/-- Claim C4 (amended): for every decimal integer literal that does not end
in an underscore, the formatter regroups the digits with an underscore every
three digits from the least-significant end exactly when the number of
non-underscore characters (sign included) is at least 5 — equivalently at
least 6 characters when the literal starts with `-` — and otherwise only
strips the existing underscores; literals prefixed `0x`, `0b` or `0o` pass
through verbatim.  In particular `100000` prints as `100_000` and `0xFF`
prints unchanged. -/
theorem format_c4 :
    (∀ (v : List Char), v.getLast? ≠ some '_' →
      underscore_integer_chars v =
        (if (if v.head? = some '-' then 6 else 5) ≤
              v.length - (v.filter (fun ch => ch == '_')).length
         then (spec_regroup_rev ((v.filter (fun c => c != '_')).reverse) 0).reverse
         else v.filter (fun c => c != '_'))) ∧
    (∀ s : String,
      (starts_with s "0x" || starts_with s "0b" || starts_with s "0o") = true →
      Formatter.int s = .Text s) ∧
    (∀ s : String,
      (starts_with s "0x" || starts_with s "0b" || starts_with s "0o") = false →
      Formatter.int s = .Text (String.mk (underscore_integer_chars s.toList))) ∧
    renderDoc (Formatter.int "100000") = "100_000" ∧
    renderDoc (Formatter.int "0xFF") = "0xFF" := by
  refine ⟨?_, ?_, ?_, by decide, by decide⟩
  · intro v hlast
    show (ui_push (decide ((if v.head? = some '-' then 6 else 5) ≤
        v.length - (List.filter (fun ch => ch == '_') v).length)) v.length v.reverse 0 0).reverse = _
    rw [ui_push_eq_spec _ _ _ 0 0 (by simp) (le_refl 0) (fun _ => rfl)
        (by rw [List.head?_reverse]; exact fun _ => hlast)]
    rw [List.filter_reverse]
    by_cases hcond : (if v.head? = some '-' then 6 else 5) ≤
        v.length - (v.filter (fun ch => ch == '_')).length
    · simp [hcond]
    · simp [hcond]
  · intro s h
    simp [Formatter.int, h]
  · intro s h
    simp [Formatter.int, h, underscore_integer_string]

/-- Witness for the amended claim C4 at the counterexample input. -/
theorem format_c4_witness :
    underscore_integer_chars "-12345".toList = "-12_345".toList := by
  have h := format_c4.1 "-12345".toList (by decide)
  rw [h]; decide


/-- Splitting at the first separator: with no separator in the prefix, the
prefix becomes the first component. -/
theorem splitOnChar_append_cons (c : Char) :
    ∀ (i rest : List Char), c ∉ i →
      splitOnChar c (i ++ c :: rest) = i :: splitOnChar c rest
  | [], rest, _ => by simp [splitOnChar]
  | x :: xs, rest, h => by
    have hx : ¬ x = c := fun hc => h (hc ▸ List.mem_cons_self x xs)
    have hxs : c ∉ xs := fun hm => h (List.mem_cons_of_mem x hm)
    rw [List.cons_append, splitOnChar]
    simp only [beq_eq_false_iff_ne.mpr hx, Bool.false_eq_true, if_false,
      splitOnChar_append_cons c xs rest hxs]

/-- A list without the separator splits into a single component. -/
theorem splitOnChar_not_mem (c : Char) :
    ∀ (l : List Char), c ∉ l → splitOnChar c l = [l]
  | [], _ => rfl
  | x :: xs, h => by
    have hx : ¬ x = c := fun hc => h (hc ▸ List.mem_cons_self x xs)
    have hxs : c ∉ xs := fun hm => h (List.mem_cons_of_mem x hm)
    rw [splitOnChar]
    simp only [beq_eq_false_iff_ne.mpr hx, Bool.false_eq_true, if_false,
      splitOnChar_not_mem c xs hxs]

/-- The head surviving `dropWhile` fails the predicate. -/
theorem dropWhile_head_false {α} (p : α → Bool) :
    ∀ (l : List α) (a : α) (t : List α), l.dropWhile p = a :: t → p a = false
  | [], a, t, h => by simp [List.dropWhile] at h
  | x :: xs, a, t, h => by
    rw [List.dropWhile_cons] at h
    by_cases hp : p x = true
    · rw [if_pos hp] at h
      exact dropWhile_head_false p xs a t h
    · rw [if_neg hp] at h
      cases h
      simpa using hp

/-- Claim C5: for every float literal `i.fs` (integer part `i`, fractional
part `f`, scientific suffix `s` beginning with `e` or absent), the formatter
prints the integer part, a dot, the fractional part with its trailing zeros
trimmed — keeping at least one digit — and the scientific suffix verbatim,
excluded from the trimming.  `trimEndZeros` removes exactly the trailing
zeros, and `1.50` prints as `1.5`, `1.0` as `1.0`, `3.00e5` as `3.0e5`. -/
theorem format_c5 :
    (∀ (i f s : List Char), '.' ∉ i → '.' ∉ f → 'e' ∉ f → '.' ∉ s →
      (s = [] ∨ s.head? = some 'e') →
      Formatter.float (String.mk (i ++ '.' :: (f ++ s))) =
        (((underscore_integer_string (String.mk i)).append (.Text ".")).append
          (.Text (String.mk (if trimEndZeros f = [] then ['0'] else trimEndZeros f)))).append
          (.Text (String.mk s))) ∧
    (∀ (f : List Char), ∃ k, f = trimEndZeros f ++ List.replicate k '0' ∧
      (trimEndZeros f = [] ∨ (trimEndZeros f).getLast? ≠ some '0')) ∧
    renderDoc (Formatter.float "1.50") = "1.5" ∧
    renderDoc (Formatter.float "1.0") = "1.0" ∧
    renderDoc (Formatter.float "3.00e5") = "3.0e5" := by
  refine ⟨?_, ?_, by decide, by decide, by decide⟩
  · intro i f s hi hf hef hs hsci
    have hdot : ('.' : Char) ∉ f ++ s := by
      intro hm
      rcases List.mem_append.mp hm with h | h
      · exact hf h
      · exact hs h
    have hsplit : splitOnChar '.' (i ++ '.' :: (f ++ s)) = [i, f ++ s] := by
      rw [splitOnChar_append_cons '.' i (f ++ s) hi, splitOnChar_not_mem '.' (f ++ s) hdot]
    have hnone : (f.findIdx? (fun ch => ch == 'e')) = none :=
      List.findIdx?_eq_none_iff.mpr
        (fun x hx => beq_eq_false_iff_ne.mpr (fun he => hef (he ▸ hx)))
    have hpos : (((f ++ s).findIdx? (fun ch => ch == 'e')).getD (f ++ s).length)
        = f.length := by
      rw [List.findIdx?_append, hnone, Option.none_or]
      rcases hsci with h | h
      · subst h; simp
      · cases s with
        | nil => simp at h
        | cons a t =>
          have ha : a = 'e' := by simpa using h
          subst ha
          rw [List.findIdx?_cons]
          simp
    show Formatter.float (String.mk (i ++ '.' :: (f ++ s))) = _
    rw [Formatter.float]
    simp only [show (String.mk (i ++ '.' :: (f ++ s))).toList = i ++ '.' :: (f ++ s) from rfl,
      hsplit]
    simp only [List.head?_cons, Option.getD_some, List.drop_succ_cons, List.drop_zero, hpos,
      List.take_left, List.drop_left]
  · intro f
    refine ⟨(f.reverse.takeWhile (fun ch => ch == '0')).length, ?_, ?_⟩
    · conv_lhs => rw [show f = f.reverse.reverse from (List.reverse_reverse f).symm]
      conv_lhs => rw [show f.reverse = f.reverse.takeWhile (fun ch => ch == '0') ++
          f.reverse.dropWhile (fun ch => ch == '0') from
          (List.takeWhile_append_dropWhile _ _).symm]
      rw [List.reverse_append]
      unfold trimEndZeros
      congr 1
      have hall : ∀ b ∈ f.reverse.takeWhile (fun ch => ch == '0'), b = '0' :=
        fun b hb => by simpa using List.mem_takeWhile_imp hb
      rw [List.eq_replicate_of_mem hall, List.reverse_replicate, List.length_replicate]
    · unfold trimEndZeros
      cases hdw : f.reverse.dropWhile (fun ch => ch == '0') with
      | nil => left; simp
      | cons a t =>
        right
        rw [List.getLast?_reverse]
        have hfa := dropWhile_head_false (fun ch => ch == '0') f.reverse a t hdw
        simp only [List.head?_cons]
        intro hcon
        injection hcon with hc
        rw [hc] at hfa
        simp at hfa

/-- Witness for claim C5 at the concrete literal `1.50`. -/
theorem format_c5_witness :
    Formatter.float (String.mk ("1".toList ++ '.' :: ("50".toList ++ []))) =
      (((underscore_integer_string (String.mk "1".toList)).append (.Text ".")).append
        (.Text (String.mk
          (if trimEndZeros "50".toList = [] then ['0'] else trimEndZeros "50".toList)))).append
        (.Text (String.mk [])) :=
  format_c5.1 "1".toList "50".toList [] (by decide) (by decide) (by decide) (by decide)
    (Or.inl rfl)

/-- Every expression's `binop_precedence` is at least 1 (operator
precedences start at 1 and atomic expressions report 255). -/
theorem one_le_binop_precedence (e : UntypedExpr) : 1 ≤ e.binop_precedence := by
  cases e
  case BinOp l n a b => cases n <;> simp [UntypedExpr.binop_precedence, BinOp.precedence]
  all_goals simp [UntypedExpr.binop_precedence]

/-- For a positive operand precedence `rp`, the code's `op > rp - 1` test is
the claim's `rp < op + 1` test. -/
theorem operator_side_sub_one (d : Document) (p rp : Nat) (h : 1 ≤ rp) :
    operator_side d p (rp - 1) = if rp < p + 1 then (wrap_block d).group else d := by
  unfold operator_side
  by_cases hc : rp < p + 1
  · rw [if_pos (by omega), if_pos hc]
  · rw [if_neg (by omega), if_neg hc]

/-- Claim C2: `bin_op` wraps an operand in an explicit block exactly when
the operand's own precedence is strictly lower than the precedence required
by its position — the operator's precedence for the left operand and one
higher for the right operand; consequently `1 + 2 * 3` renders without an
added block, `{ 1 + 2 } * 3` keeps its grouping, `a - (b - c)` gains a
block on the right operand, and `a - b - c` gains none. -/
theorem format_c2 :
    (∀ (name : BinOp) (left right : UntypedExpr) (s : Formatter),
      (Formatter.bin_op name left right).run s =
        ((do
          let l ← Formatter.expr left
          let r ← Formatter.expr right
          pure (((if left.binop_precedence < name.precedence
                  then (wrap_block l).group else l).append name.to_doc).append
                (if right.binop_precedence < name.precedence + 1
                 then (wrap_block r).group else r)) : FmtM Document)).run s) ∧
    render_result (Formatter.expr (.BinOp sp .AddInt (.Int sp "1")
      (.BinOp sp .MultInt (.Int sp "2") (.Int sp "3")))) = .ok "1 + 2 * 3" ∧
    render_result (Formatter.expr (.BinOp sp .MultInt
      (.BinOp sp .AddInt (.Int sp "1") (.Int sp "2")) (.Int sp "3")))
      = .ok "\x7b 1 + 2 \x7d * 3" ∧
    render_result (Formatter.expr (.BinOp sp .SubInt (.Var sp "a")
      (.BinOp sp .SubInt (.Var sp "b") (.Var sp "c")))) = .ok "a - \x7b b - c \x7d" ∧
    render_result (Formatter.expr (.BinOp sp .SubInt
      (.BinOp sp .SubInt (.Var sp "a") (.Var sp "b")) (.Var sp "c"))) = .ok "a - b - c" := by
  refine ⟨?_, ?_, ?_, ?_, ?_⟩
  · intro name left right s
    simp only [Formatter.bin_op]
    simp only [operator_side_sub_one _ _ _ (one_le_binop_precedence right)]
    simp only [operator_side]
  · simp [render_result, Formatter.expr, Formatter.bin_op]
    decide
  · simp [render_result, Formatter.expr, Formatter.bin_op]
    decide
  · simp [render_result, Formatter.expr, Formatter.bin_op]
    decide
  · simp [render_result, Formatter.expr, Formatter.bin_op]
    decide

/-- Claim C3: for a pipeline-stage capture whose body is a call, a
placeholder as first and sole argument prints only the callee, a placeholder
first among several prints the callee with the remaining arguments, and a
placeholder in any later position prints the call with all its arguments
including `_`; rendered: `x |> f(_)` gives `x\n|> f`, `x |> f(_, 2)` gives
`x\n|> f(2)`, and `x |> f(1, _)` gives `x\n|> f(1, _)` (the pipeline always
breaks onto one stage per line). -/
theorem format_c3 :
    (∀ (loc : SrcSpan) (f2 : UntypedExpr) (args : List CallArg) (s : Formatter),
      capture_hole_first args = true → args.length = 1 →
      (Formatter.pipe_capture_right_hand_side (.Call loc f2 args)).run s =
        (Formatter.expr f2).run s) ∧
    (∀ (loc : SrcSpan) (f2 : UntypedExpr) (args : List CallArg) (s : Formatter),
      capture_hole_first args = true → args.length ≠ 1 →
      (Formatter.pipe_capture_right_hand_side (.Call loc f2 args)).run s =
        ((do
          let d ← Formatter.expr f2
          let ds ← Formatter.call_args_docs (args.drop 1)
          pure (d.append ((wrap_args ds).group)) : FmtM Document)).run s) ∧
    (∀ (loc : SrcSpan) (f2 : UntypedExpr) (args : List CallArg) (s : Formatter),
      capture_hole_first args = false →
      (Formatter.pipe_capture_right_hand_side (.Call loc f2 args)).run s =
        ((do
          let d ← Formatter.expr f2
          let ds ← Formatter.call_args_docs args
          pure (d.append ((wrap_args ds).group)) : FmtM Document)).run s) ∧
    render_result (Formatter.expr (.PipeLine (.Var sp "x")
      [.Fn sp [.Expression (.Call sp (.Var sp "f")
        [⟨none, sp, .Var sp CAPTURE_VARIABLE⟩])]])) = .ok "x\n|> f" ∧
    render_result (Formatter.expr (.PipeLine (.Var sp "x")
      [.Fn sp [.Expression (.Call sp (.Var sp "f")
        [⟨none, sp, .Var sp CAPTURE_VARIABLE⟩, ⟨none, sp, .Int sp "2"⟩])]]))
      = .ok "x\n|> f(2)" ∧
    render_result (Formatter.expr (.PipeLine (.Var sp "x")
      [.Fn sp [.Expression (.Call sp (.Var sp "f")
        [⟨none, sp, .Int sp "1"⟩, ⟨none, sp, .Var sp CAPTURE_VARIABLE⟩])]]))
      = .ok "x\n|> f(1, _)" := by
  refine ⟨?_, ?_, ?_, ?_, ?_, ?_⟩
  · intro loc f2 args s hhole hlen
    unfold capture_hole_first at hhole
    simp only [Formatter.pipe_capture_right_hand_side, hhole, hlen]
    simp
  · intro loc f2 args s hhole hlen
    unfold capture_hole_first at hhole
    have hlen' : (args.length == 1) = false := by
      simp [hlen]
    simp only [Formatter.pipe_capture_right_hand_side, hhole, hlen']
    simp
  · intro loc f2 args s hhole
    unfold capture_hole_first at hhole
    simp only [Formatter.pipe_capture_right_hand_side, hhole]
    simp
  · simp [render_result, Formatter.expr, Formatter.pipeline, Formatter.pipeline_stages,
      Formatter.pipe_capture_right_hand_side, Formatter.call_args_docs, Formatter.call_arg]
    decide
  · simp [render_result, Formatter.expr, Formatter.pipeline, Formatter.pipeline_stages,
      Formatter.pipe_capture_right_hand_side, Formatter.call_args_docs, Formatter.call_arg]
    decide
  · simp [render_result, Formatter.expr, Formatter.pipeline, Formatter.pipeline_stages,
      Formatter.pipe_capture_right_hand_side, Formatter.call_args_docs, Formatter.call_arg]
    decide

/-- Witness for claim C3 at the sole-placeholder capture `f(_)`. -/
theorem format_c3_witness :
    (Formatter.pipe_capture_right_hand_side (.Call sp (.Var sp "f")
      [⟨none, sp, .Var sp CAPTURE_VARIABLE⟩])).run Formatter.new =
    (Formatter.expr (.Var sp "f")).run Formatter.new :=
  format_c3.1 sp (.Var sp "f") [⟨none, sp, .Var sp CAPTURE_VARIABLE⟩] Formatter.new
    (by decide) (by decide)

/-- Claim C9: a placeholder expression reaching `expr` or `call`, or a
pipe-capture body that is not a function call, makes the formatter fail with
a fatal invariant violation — an `Except.error` of the dedicated `Fatal`
type, never an `ok` document; the `Fatal` type has no parse-error
constructor, keeping this failure distinct from the parse-error path. -/
theorem format_c9 :
    (∀ (loc : SrcSpan) (s : Formatter),
      (Formatter.expr (.Placeholder loc)).run s =
        .error (.fatal "Placeholders should not be formatted")) ∧
    (∀ (loc : SrcSpan) (args : List CallArg) (s : Formatter),
      (Formatter.call (.Placeholder loc) args).run s =
        .error (.fatal "Placeholders should not be formatted")) ∧
    (∀ (e : UntypedExpr) (s : Formatter), isCall e = false →
      (Formatter.pipe_capture_right_hand_side e).run s =
        .error (.fatal
          "Function capture found not to have a function call body when formatting")) ∧
    (∀ (loc : SrcSpan) (s : Formatter) (r : Document × Formatter),
      (Formatter.expr (.Placeholder loc)).run s ≠ .ok r) ∧
    (∀ (e : UntypedExpr) (s : Formatter) (r : Document × Formatter), isCall e = false →
      (Formatter.pipe_capture_right_hand_side e).run s ≠ .ok r) := by
  have h1 : ∀ (loc : SrcSpan) (s : Formatter),
      (Formatter.expr (.Placeholder loc)).run s =
        .error (.fatal "Placeholders should not be formatted") := by
    intro loc s
    simp [Formatter.expr]
    rfl
  have h3 : ∀ (e : UntypedExpr) (s : Formatter), isCall e = false →
      (Formatter.pipe_capture_right_hand_side e).run s =
        .error (.fatal
          "Function capture found not to have a function call body when formatting") := by
    intro e s h
    cases e <;> simp [isCall] at h ⊢ <;> simp [Formatter.pipe_capture_right_hand_side] <;> rfl
  refine ⟨h1, ?_, h3, ?_, ?_⟩
  · intro loc args s
    simp [Formatter.call]
    rfl
  · intro loc s r
    rw [h1]
    intro hc
    injection hc
  · intro e s r h
    rw [h3 e s h]
    intro hc
    injection hc

/-- Witness for claim C9 at a non-call capture body. -/
theorem format_c9_witness :
    (Formatter.pipe_capture_right_hand_side (.Var sp "g")).run Formatter.new =
      .error (.fatal
        "Function capture found not to have a function call body when formatting") :=
  format_c9.2.2.1 (.Var sp "g") Formatter.new (by decide)

/-- The stateful definition loop with its `previous_was_import` flag equals
the claim's pairwise walk whenever the flag records the predecessor. -/
theorem module_loop_eq_claim_rest :
    ∀ (rest : List TargetedDefinition) (prev : TargetedDefinition) (s : Formatter),
      (Formatter.module_documents_loop prev.definition.is_import rest).run s =
        (module_documents_claim_rest prev rest).run s
  | [], prev, s => rfl
  | d :: rest, prev, s => by
    simp only [Formatter.module_documents_loop, module_documents_claim_rest, c8_separator]
    simp only [StateT.run_bind]
    congr 1
    funext p
    rw [module_loop_eq_claim_rest rest d p.2]

/-- Claim C8: the module walk inserts `lines 1` (a single newline — zero
blank lines) between two consecutive import definitions and `lines 2` (a
double newline — exactly one blank line) between any other pair, and nothing
before the first definition; verified by proving the loop equal to the
pairwise claim-side walk, by the renderings of the two separators, and by a
concrete module of two imports followed by a constant. -/
theorem format_c8 :
    (∀ (defs : List TargetedDefinition) (s : Formatter),
      (Formatter.module_documents defs).run s = (module_documents_claim defs).run s) ∧
    renderDoc (lines 2) = "\n\n" ∧
    renderDoc (lines 1) = "\n" ∧
    render_result (Formatter.module ⟨[
      ⟨none, .Import { location := sp, module := "gleam/int", as_name := none,
                       unqualified_values := [], unqualified_types := [] }⟩,
      ⟨none, .Import { location := sp, module := "gleam/list", as_name := none,
                       unqualified_values := [], unqualified_types := [] }⟩,
      ⟨none, .ModuleConstant { location := sp, public := true, name := "x",
                               value := .Int sp "1" }⟩]⟩)
      = .ok "import gleam/int\nimport gleam/list\n\npub const x = 1\n" := by
  refine ⟨?_, by decide, by decide, by decide⟩
  intro defs s
  cases defs with
  | nil => rfl
  | cons d rest =>
    simp only [Formatter.module_documents, module_documents_claim]
    simp only [StateT.run_bind]
    congr 1
    funext p
    rw [module_loop_eq_claim_rest rest d p.2]


/-- `lexLe` is total. -/
theorem lexLe_total : ∀ (a b : List Char), lexLe a b = true ∨ lexLe b a = true
  | [], _ => Or.inl rfl
  | _ :: _, [] => Or.inr rfl
  | x :: xs, y :: ys => by
    by_cases hxy : x = y
    · subst hxy
      rcases lexLe_total xs ys with h | h
      · left; simp [lexLe, h]
      · right; simp [lexLe, h]
    · rcases lt_or_gt_of_ne hxy with h | h
      · left; simp [lexLe, hxy, h]
      · right
        have hyx : ¬ y = x := fun hc => hxy hc.symm
        simp [lexLe, hyx, h]

/-- `lexLe` is transitive. -/
theorem lexLe_trans : ∀ (a b c : List Char),
    lexLe a b = true → lexLe b c = true → lexLe a c = true
  | [], _, _, _, _ => rfl
  | x :: xs, [], _, h, _ => by simp [lexLe] at h
  | x :: xs, y :: ys, [], _, h => by simp [lexLe] at h
  | x :: xs, y :: ys, z :: zs, h1, h2 => by
    by_cases hxy : x = y <;> by_cases hyz : y = z
    · subst hxy; subst hyz
      simp only [lexLe, if_pos rfl] at h1 h2 ⊢
      exact lexLe_trans _ _ _ h1 h2
    · subst hxy
      simp only [lexLe, if_pos rfl, if_neg hyz] at h2 ⊢
      exact h2
    · subst hyz
      simp only [lexLe, if_neg hxy] at h1 ⊢
      exact h1
    · simp only [lexLe, if_neg hxy, if_neg hyz] at h1 h2
      have hxz : ¬ x = z := by
        intro hc
        subst hc
        exact absurd (lt_trans (of_decide_eq_true h1) (of_decide_eq_true h2)) (lt_irrefl x)
      simp only [lexLe, if_neg hxz]
      exact decide_eq_true (lt_trans (of_decide_eq_true h1) (of_decide_eq_true h2))

/-- `lexLe` is antisymmetric on character lists. -/
theorem lexLe_antisymm : ∀ (a b : List Char),
    lexLe a b = true → lexLe b a = true → a = b
  | [], [], _, _ => rfl
  | [], _ :: _, _, h => by simp [lexLe] at h
  | _ :: _, [], h, _ => by simp [lexLe] at h
  | x :: xs, y :: ys, h1, h2 => by
    by_cases hxy : x = y
    · subst hxy
      simp only [lexLe, if_pos rfl] at h1 h2
      rw [lexLe_antisymm xs ys h1 h2]
    · have hyx : ¬ y = x := fun hc => hxy hc.symm
      simp only [lexLe, if_neg hxy, if_neg hyx] at h1 h2
      exact absurd (lt_trans (of_decide_eq_true h1) (of_decide_eq_true h2)) (lt_irrefl x)

/-- `lexLe` is reflexive. -/
theorem lexLe_refl : ∀ (l : List Char), lexLe l l = true
  | [] => rfl
  | x :: xs => by simp [lexLe, lexLe_refl xs]

/-- Strings with equal character lists are equal. -/
theorem string_toList_inj {s t : String} (h : s.toList = t.toList) : s = t := by
  cases s; cases t
  simp only [String.toList] at h
  rw [h]

/-- Two sorted permutations of each other with pairwise-distinct names are
equal: the sorted-by-name order is canonical. -/
theorem sorted_perm_nodup_eq :
    ∀ (l₁ l₂ : List UnqualifiedImport), l₁.Perm l₂ →
      List.Sorted NameLe l₁ → List.Sorted NameLe l₂ →
      (l₁.map (fun e => e.name)).Nodup → l₁ = l₂
  | [], l₂, hp, _, _, _ => hp.nil_eq
  | a :: t₁, l₂, hp, hs₁, hs₂, hnd => by
    cases l₂ with
    | nil =>
      have := hp.length_eq
      simp at this
    | cons b t₂ =>
      have hmem_a : a ∈ b :: t₂ := hp.subset (List.mem_cons_self a t₁)
      have hmem_b : b ∈ a :: t₁ := hp.symm.subset (List.mem_cons_self b t₂)
      have hab : NameLe a b := by
        rcases List.mem_cons.mp hmem_b with h | h
        · subst h
          unfold NameLe name_le
          exact lexLe_refl _
        · exact List.rel_of_sorted_cons hs₁ b h
      have hba : NameLe b a := by
        rcases List.mem_cons.mp hmem_a with h | h
        · subst h
          unfold NameLe name_le
          exact lexLe_refl _
        · exact List.rel_of_sorted_cons hs₂ a h
      have hname : a.name = b.name := by
        unfold NameLe name_le at hab hba
        exact string_toList_inj (lexLe_antisymm _ _ hab hba)
      have hae : a = b := by
        rcases List.mem_cons.mp hmem_a with h | h
        · exact h
        · exfalso
          have hnd₂ : ((b :: t₂).map (fun e => e.name)).Nodup :=
            (List.Perm.nodup_iff (hp.map (fun e => e.name))).mp hnd
          rw [List.map_cons, List.nodup_cons] at hnd₂
          exact hnd₂.1 (by rw [← hname]; exact List.mem_map.mpr ⟨a, h, rfl⟩)
      subst hae
      have hp' : t₁.Perm t₂ := hp.cons_inv
      have hnd' : (t₁.map (fun e => e.name)).Nodup := by
        rw [List.map_cons, List.nodup_cons] at hnd
        exact hnd.2
      rw [sorted_perm_nodup_eq t₁ t₂ hp' hs₁.of_cons hs₂.of_cons hnd']

/-- Lists of equal length are equally empty. -/
theorem isEmpty_eq_of_length_eq {α β : Type} :
    ∀ (x : List α) (y : List β), x.length = y.length → x.isEmpty = y.isEmpty := by
  intro x y h
  cases x <;> cases y <;> simp_all

/-- Claim C10: the formatter prints an import's braced unqualified list
with every type item (prefixed `type `) before every value item, each group
sorted alphabetically by imported name, independently of the source order:
permuting the source-order lists (with pairwise-distinct names) leaves the
output unchanged, `sorted_by_name` yields a name-sorted list, and two
concrete imports render with the claimed ordering. -/
theorem format_c10 :
    (∀ (i : ImportDef) (ts' vs' : List UnqualifiedImport) (s : Formatter),
      i.unqualified_types.Perm ts' → i.unqualified_values.Perm vs' →
      (i.unqualified_types.map (fun e => e.name)).Nodup →
      (i.unqualified_values.map (fun e => e.name)).Nodup →
      (Formatter.definition (.Import i)).run s =
        (Formatter.definition
          (.Import ⟨i.location, i.module, i.as_name, vs', ts'⟩)).run s) ∧
    (∀ (l : List UnqualifiedImport), List.Sorted NameLe (sorted_by_name l)) ∧
    render_result (Formatter.definition (.Import
      { location := sp, module := "gleam/list", as_name := none,
        unqualified_values := [⟨"map", none⟩, ⟨"filter", none⟩],
        unqualified_types := [⟨"Foo", none⟩] }))
      = .ok "import gleam/list.\x7btype Foo, filter, map\x7d" ∧
    render_result (Formatter.definition (.Import
      { location := sp, module := "m", as_name := none,
        unqualified_values := [⟨"a", none⟩],
        unqualified_types := [⟨"z", none⟩] }))
      = .ok "import m.\x7btype z, a\x7d" := by
  haveI : IsTotal UnqualifiedImport NameLe :=
    ⟨fun a b => lexLe_total a.name.toList b.name.toList⟩
  haveI : IsTrans UnqualifiedImport NameLe :=
    ⟨fun a b c h1 h2 => lexLe_trans _ _ _ h1 h2⟩
  refine ⟨?_, ?_, by decide, by decide⟩
  · intro i ts' vs' s hpt hpv hndt hndv
    have hsort_t : sorted_by_name i.unqualified_types = sorted_by_name ts' := by
      apply sorted_perm_nodup_eq
      · exact (List.perm_insertionSort _ _).trans
          (hpt.trans (List.perm_insertionSort _ _).symm)
      · exact List.sorted_insertionSort _ _
      · exact List.sorted_insertionSort _ _
      · exact (List.Perm.nodup_iff
          ((List.perm_insertionSort NameLe i.unqualified_types).map (fun e => e.name))).mpr hndt
    have hsort_v : sorted_by_name i.unqualified_values = sorted_by_name vs' := by
      apply sorted_perm_nodup_eq
      · exact (List.perm_insertionSort _ _).trans
          (hpv.trans (List.perm_insertionSort _ _).symm)
      · exact List.sorted_insertionSort _ _
      · exact List.sorted_insertionSort _ _
      · exact (List.Perm.nodup_iff
          ((List.perm_insertionSort NameLe i.unqualified_values).map (fun e => e.name))).mpr hndv
    have hempty_t : i.unqualified_types.isEmpty = ts'.isEmpty :=
      isEmpty_eq_of_length_eq _ _ hpt.length_eq
    have hempty_v : i.unqualified_values.isEmpty = vs'.isEmpty :=
      isEmpty_eq_of_length_eq _ _ hpv.length_eq
    simp only [Formatter.definition]
    rw [hsort_t, hsort_v, hempty_t, hempty_v]
  · exact fun l => List.sorted_insertionSort NameLe l

/-- Witness for claim C10: swapping the two source-order values leaves the
formatted import unchanged. -/
theorem format_c10_witness :
    (Formatter.definition (.Import
      { location := sp, module := "gleam/list", as_name := none,
        unqualified_values := [⟨"map", none⟩, ⟨"filter", none⟩],
        unqualified_types := [⟨"Foo", none⟩] })).run Formatter.new =
    (Formatter.definition (.Import
      { location := sp, module := "gleam/list", as_name := none,
        unqualified_values := [⟨"filter", none⟩, ⟨"map", none⟩],
        unqualified_types := [⟨"Foo", none⟩] })).run Formatter.new :=
  format_c10.1
    { location := sp, module := "gleam/list", as_name := none,
      unqualified_values := [⟨"map", none⟩, ⟨"filter", none⟩],
      unqualified_types := [⟨"Foo", none⟩] }
    [⟨"Foo", none⟩] [⟨"filter", none⟩, ⟨"map", none⟩] Formatter.new
    (by decide) (by decide) (by decide) (by decide)


theorem findIdx_getD_eq_takeWhile_length {α : Type} (p : α → Bool) :
    ∀ (l : List α) (i : Nat),
      (List.findIdx? p l i).getD (i + l.length) = i + (l.takeWhile (fun a => !p a)).length
  | [], i => by simp
  | x :: xs, i => by
    rw [List.findIdx?_cons]
    by_cases h : p x = true
    · simp [h, List.takeWhile_cons]
    · have hx : (p x) = false := by simp at h; exact h
      have harith : i + (x :: xs).length = (i + 1) + xs.length := by
        simp only [List.length_cons]; omega
      rw [if_neg (by simp [hx]), harith, findIdx_getD_eq_takeWhile_length p xs (i + 1)]
      rw [List.takeWhile_cons]
      simp [hx]
      omega

theorem take_eq_takeWhile_of_length {α : Type} (q : α → Bool) (l : List α) :
    l.take (l.takeWhile q).length = l.takeWhile q := by
  have h := List.take_left (l.takeWhile q) (l.dropWhile q)
  rw [List.takeWhile_append_dropWhile] at h
  exact h

theorem drop_eq_dropWhile_of_length {α : Type} (q : α → Bool) (l : List α) :
    l.drop (l.takeWhile q).length = l.dropWhile q := by
  have h := List.drop_left (l.takeWhile q) (l.dropWhile q)
  rw [List.takeWhile_append_dropWhile] at h
  exact h

theorem takeWhile_eq_filter_of_key_sorted {α : Type} (f : α → Nat) (limit : Nat) :
    ∀ (l : List α), List.Pairwise (fun a b => f a < f b) l →
      l.takeWhile (fun a => decide (f a ≤ limit)) = l.filter (fun a => decide (f a ≤ limit))
  | [], _ => rfl
  | x :: xs, h => by
    rcases List.pairwise_cons.mp h with ⟨hx, hxs⟩
    by_cases hle : f x ≤ limit
    · rw [List.takeWhile_cons, List.filter_cons,
        takeWhile_eq_filter_of_key_sorted f limit xs hxs]
      simp [hle]
    · have hfil : xs.filter (fun a => decide (f a ≤ limit)) = [] := by
        rw [List.filter_eq_nil_iff]
        intro a ha
        simp only [decide_eq_true_eq]
        have := hx a ha
        omega
      rw [List.takeWhile_cons, List.filter_cons]
      simp [hle, hfil]

theorem dropWhile_eq_filter_of_key_sorted {α : Type} (f : α → Nat) (limit : Nat) :
    ∀ (l : List α), List.Pairwise (fun a b => f a < f b) l →
      l.dropWhile (fun a => decide (f a ≤ limit)) = l.filter (fun a => decide (limit < f a))
  | [], _ => rfl
  | x :: xs, h => by
    rcases List.pairwise_cons.mp h with ⟨hx, hxs⟩
    by_cases hle : f x ≤ limit
    · rw [List.dropWhile_cons, List.filter_cons,
        dropWhile_eq_filter_of_key_sorted f limit xs hxs]
      have hnot : ¬ (limit < f x) := by omega
      simp [hle, hnot]
    · have hall : (x :: xs).filter (fun a => decide (limit < f a)) = x :: xs := by
        rw [List.filter_eq_self]
        intro a ha
        simp only [decide_eq_true_eq]
        rcases List.mem_cons.mp ha with h1 | h1
        · subst h1; omega
        · have := hx a h1; omega
      rw [List.dropWhile_cons, hall]
      simp [hle]

theorem mergeBy_nil_right {α : Type} (lt : α → α → Bool) (l : List α) :
    mergeBy lt l [] = l := by
  cases l <;> rfl

theorem mergeBy_cons_cons {α : Type} (lt : α → α → Bool) (x y : α) (xs ys : List α) :
    mergeBy lt (x :: xs) (y :: ys) =
      if lt x y then x :: mergeBy lt xs (y :: ys) else y :: mergeBy lt (x :: xs) ys := rfl

theorem mergeBy_perm {α : Type} (lt : α → α → Bool) :
    ∀ (l r : List α), (mergeBy lt l r).Perm (l ++ r)
  | [], r => by simp [mergeBy]
  | x :: xs, [] => by rw [mergeBy_nil_right]; simp
  | x :: xs, y :: ys => by
    rw [mergeBy_cons_cons]
    by_cases h : lt x y = true
    · rw [if_pos h]
      exact (mergeBy_perm lt xs (y :: ys)).cons x
    · rw [if_neg h]
      exact ((mergeBy_perm lt (x :: xs) ys).cons y).trans List.perm_middle.symm
termination_by l r => l.length + r.length
decreasing_by all_goals simp_arith

theorem mergeBy_filterMap_snd {β : Type} (lt : (Nat × Option β) → (Nat × Option β) → Bool) :
    ∀ (l r : List (Nat × Option β)), (∀ x ∈ r, x.2 = none) →
      (mergeBy lt l r).filterMap (fun x => x.2) = l.filterMap (fun x => x.2)
  | [], r, h => by
    simp only [mergeBy]
    rw [List.filterMap_eq_nil_iff.mpr h, List.filterMap_nil]
  | x :: xs, [], _ => by rw [mergeBy_nil_right]
  | x :: xs, y :: ys, h => by
    rw [mergeBy_cons_cons]
    by_cases hlt : lt x y = true
    · rw [if_pos hlt, List.filterMap_cons, List.filterMap_cons,
        mergeBy_filterMap_snd lt xs (y :: ys) h]
    · rw [if_neg hlt, List.filterMap_cons, h y (List.mem_cons_self y ys),
        mergeBy_filterMap_snd lt (x :: xs) ys (fun z hz => h z (List.mem_cons_of_mem y hz))]
termination_by l r => l.length + r.length
decreasing_by all_goals simp_arith

theorem mergeBy_pairwise_le :
    ∀ (l r : List (Nat × Option String)),
      List.Pairwise (fun a b => a.1 < b.1) l → List.Pairwise (fun a b => a.1 < b.1) r →
      List.Pairwise (fun a b : Nat × Option String => a.1 ≤ b.1)
        (mergeBy (fun a b => decide (a.1 < b.1)) l r)
  | [], r, _, hr => by
    simp only [mergeBy]
    exact hr.imp (fun h => Nat.le_of_lt h)
  | x :: xs, [], hl, _ => by
    rw [mergeBy_nil_right]
    exact hl.imp (fun h => Nat.le_of_lt h)
  | x :: xs, y :: ys, hl, hr => by
    rw [mergeBy_cons_cons]
    rcases List.pairwise_cons.mp hl with ⟨hx, hxs⟩
    rcases List.pairwise_cons.mp hr with ⟨hy, hys⟩
    by_cases h : x.1 < y.1
    · rw [if_pos (by simpa using h)]
      refine List.pairwise_cons.mpr ⟨?_, mergeBy_pairwise_le xs (y :: ys) hxs hr⟩
      intro z hz
      have hz' : z ∈ xs ++ y :: ys := (mergeBy_perm _ xs (y :: ys)).mem_iff.mp hz
      rcases List.mem_append.mp hz' with h1 | h1
      · exact Nat.le_of_lt (hx z h1)
      · rcases List.mem_cons.mp h1 with h2 | h2
        · subst h2; exact Nat.le_of_lt h
        · exact Nat.le_of_lt (Nat.lt_trans h (hy z h2))
    · rw [if_neg (by simpa using h)]
      refine List.pairwise_cons.mpr ⟨?_, mergeBy_pairwise_le (x :: xs) ys hl hys⟩
      intro z hz
      have hz' : z ∈ (x :: xs) ++ ys := (mergeBy_perm _ (x :: xs) ys).mem_iff.mp hz
      have hyx : y.1 ≤ x.1 := Nat.le_of_not_lt h
      rcases List.mem_append.mp hz' with h1 | h1
      · rcases List.mem_cons.mp h1 with h2 | h2
        · subst h2; exact hyx
        · exact Nat.le_of_lt (Nat.lt_of_le_of_lt hyx (hx z h2))
      · exact Nat.le_of_lt (hy z h1)
termination_by l r => l.length + r.length
decreasing_by all_goals simp_arith

theorem coalesce_go_fst_mem :
    ∀ (pairs : List (Nat × Nat)) (cur : Nat × Nat) (x : Nat × Nat),
      x ∈ coalesce_go cur pairs → x.1 = cur.1 ∨ ∃ w ∈ pairs, x.1 = w.1
  | [], cur, x, h => by
    simp only [coalesce_go, List.mem_singleton] at h
    subst h; exact Or.inl rfl
  | b :: rest, cur, x, h => by
    rw [coalesce_go] at h
    by_cases hm : cur.2 + 1 = b.1
    · rw [if_pos hm] at h
      rcases coalesce_go_fst_mem rest (cur.1, b.2) x h with h1 | ⟨w, hw, hw2⟩
      · exact Or.inl h1
      · exact Or.inr ⟨w, List.mem_cons_of_mem b hw, hw2⟩
    · rw [if_neg hm] at h
      rcases List.mem_cons.mp h with h1 | h1
      · subst h1; exact Or.inl rfl
      · rcases coalesce_go_fst_mem rest b x h1 with h2 | ⟨w, hw, hw2⟩
        · exact Or.inr ⟨b, List.mem_cons_self b rest, h2⟩
        · exact Or.inr ⟨w, List.mem_cons_of_mem b hw, hw2⟩

theorem coalesce_go_pairwise :
    ∀ (pairs : List (Nat × Nat)) (cur : Nat × Nat),
      List.Pairwise (fun a b : Nat × Nat => a.1 < b.1) (cur :: pairs) →
      List.Pairwise (fun a b : Nat × Nat => a.1 < b.1) (coalesce_go cur pairs)
  | [], cur, _ => by simp [coalesce_go]
  | b :: rest, cur, h => by
    rcases List.pairwise_cons.mp h with ⟨hcur, htail⟩
    rcases List.pairwise_cons.mp htail with ⟨hb, hrest⟩
    rw [coalesce_go]
    by_cases hm : cur.2 + 1 = b.1
    · rw [if_pos hm]
      refine coalesce_go_pairwise rest (cur.1, b.2) (List.pairwise_cons.mpr ⟨?_, hrest⟩)
      intro z hz
      exact hcur z (List.mem_cons_of_mem b hz)
    · rw [if_neg hm]
      refine List.pairwise_cons.mpr ⟨?_, coalesce_go_pairwise rest b htail⟩
      intro z hz
      rcases coalesce_go_fst_mem rest b z hz with h1 | ⟨w, hw, hw2⟩
      · rw [h1]; exact hcur b (List.mem_cons_self b rest)
      · rw [hw2]; exact hcur w (List.mem_cons_of_mem b hw)

theorem coalesce_go_head_fst :
    ∀ (pairs : List (Nat × Nat)) (cur : Nat × Nat),
      ∃ y l', coalesce_go cur pairs = y :: l' ∧ y.1 = cur.1
  | [], cur => ⟨cur, [], rfl, rfl⟩
  | b :: rest, cur => by
    rw [coalesce_go]
    by_cases hm : cur.2 + 1 = b.1
    · rw [if_pos hm]
      rcases coalesce_go_head_fst rest (cur.1, b.2) with ⟨y, l', h1, h2⟩
      exact ⟨y, l', h1, h2⟩
    · rw [if_neg hm]
      exact ⟨cur, coalesce_go b rest, rfl, rfl⟩

theorem coalesce_go_chain :
    ∀ (pairs : List (Nat × Nat)) (cur : Nat × Nat),
      List.Chain' (fun a b : Nat × Nat => a.2 + 1 ≠ b.1) (coalesce_go cur pairs)
  | [], cur => by simp [coalesce_go]
  | b :: rest, cur => by
    rw [coalesce_go]
    by_cases hm : cur.2 + 1 = b.1
    · rw [if_pos hm]
      exact coalesce_go_chain rest (cur.1, b.2)
    · rw [if_neg hm]
      rcases coalesce_go_head_fst rest b with ⟨y, l', h1, h2⟩
      rw [h1]
      exact List.Chain'.cons (by rw [h2]; exact hm) (h1 ▸ coalesce_go_chain rest b)

theorem coalesce_runs_chain (l : List (Nat × Nat)) :
    List.Chain' (fun a b : Nat × Nat => a.2 + 1 ≠ b.1) (coalesce_runs l) := by
  cases l with
  | nil => simp [coalesce_runs]
  | cons x rest => exact coalesce_go_chain rest x

theorem coalesce_runs_pairwise (l : List (Nat × Nat))
    (h : List.Pairwise (fun a b : Nat × Nat => a.1 < b.1) l) :
    List.Pairwise (fun a b : Nat × Nat => a.1 < b.1) (coalesce_runs l) := by
  cases l with
  | nil => simp [coalesce_runs]
  | cons x rest => exact coalesce_go_pairwise rest x h

theorem not_lt_decide_eq {α : Type} (f : α → Nat) (limit : Nat) :
    (fun a => !decide (limit < f a)) = (fun a => decide (f a ≤ limit)) := by
  funext a
  by_cases h : limit < f a
  · have h2 : ¬ f a ≤ limit := by omega
    simp [h, h2]
  · have h2 : f a ≤ limit := by omega
    simp [h, h2]

theorem take_findIdx_eq_filter {α : Type} (f : α → Nat) (limit : Nat) (l : List α)
    (h : List.Pairwise (fun a b => f a < f b) l) :
    l.take ((l.findIdx? (fun a => decide (limit < f a))).getD l.length)
      = l.filter (fun a => decide (f a ≤ limit)) := by
  have h0 : (List.findIdx? (fun a => decide (limit < f a)) l).getD l.length
      = (l.takeWhile (fun a => !decide (limit < f a))).length := by
    simpa using findIdx_getD_eq_takeWhile_length (fun a => decide (limit < f a)) l 0
  rw [h0, not_lt_decide_eq f limit, take_eq_takeWhile_of_length,
    takeWhile_eq_filter_of_key_sorted f limit l h]

theorem drop_findIdx_eq_filter {α : Type} (f : α → Nat) (limit : Nat) (l : List α)
    (h : List.Pairwise (fun a b => f a < f b) l) :
    l.drop ((l.findIdx? (fun a => decide (limit < f a))).getD l.length)
      = l.filter (fun a => decide (limit < f a)) := by
  have h0 : (List.findIdx? (fun a => decide (limit < f a)) l).getD l.length
      = (l.takeWhile (fun a => !decide (limit < f a))).length := by
    simpa using findIdx_getD_eq_takeWhile_length (fun a => decide (limit < f a)) l 0
  rw [h0, not_lt_decide_eq f limit, drop_eq_dropWhile_of_length,
    dropWhile_eq_filter_of_key_sorted f limit l h]

theorem filterMap_snd_dropWhile_isNone {β : Type} :
    ∀ (l : List (Nat × Option β)),
      (l.dropWhile (fun x => x.2.isNone)).filterMap (fun x => x.2)
        = l.filterMap (fun x => x.2)
  | [] => rfl
  | x :: xs => by
    rw [List.dropWhile_cons]
    by_cases h : x.2.isNone = true
    · have hnone : x.2 = none := Option.eq_none_iff_forall_not_mem.mpr
        (fun a ha => by rw [Option.mem_def] at ha; rw [ha] at h; simp at h)
      rw [if_pos h, filterMap_snd_dropWhile_isNone xs, List.filterMap_cons, hnone]
    · rw [if_neg h]

/-- C6: `pop_comments(limit)` on offset-sorted trivia returns the free comments
at offsets up to the limit merged with blank-line markers in non-decreasing
offset order, consecutive blank-line offsets coalesced into single runs
(adjacent coalesced runs are never consecutive), with leading blank-line
markers trimmed, so the result never begins with a blank-line marker. -/
theorem format_c6 (comments : List Comment) (els : List Nat) (limit : Nat)
    (hc : List.Pairwise (fun a b => a.start < b.start) comments)
    (he : List.Pairwise (fun a b : Nat => a < b) els) :
    (comments_before comments els limit true).1.head? ≠ some none
    ∧ (comments_before comments els limit true).1.filterMap id
        = (comments.filter (fun c => decide (c.start ≤ limit))).map (fun c => c.content)
    ∧ List.Pairwise (fun a b : Nat × Option String => a.1 ≤ b.1)
        (merged_before comments els limit true)
    ∧ List.Chain' (fun a b : Nat × Nat => a.2 + 1 ≠ b.1)
        (coalesce_runs ((els.take
          ((els.findIdx? (fun l => decide (limit < l))).getD els.length)).map (fun i => (i, i))))
    ∧ (comments_before comments els limit true).1.countP (fun o => o.isNone)
        ≤ (coalesce_runs ((els.take
          ((els.findIdx? (fun l => decide (limit < l))).getD els.length)).map
            (fun i => (i, i)))).length := by
  have hmerged : merged_before comments els limit true
      = mergeBy (fun a b => decide (a.1 < b.1))
          ((comments.take
            ((comments.findIdx? (fun c => decide (limit < c.start))).getD comments.length)).map
              (fun c => (c.start, some c.content)))
          ((coalesce_runs ((els.take
            ((els.findIdx? (fun l => decide (limit < l))).getD els.length)).map
              (fun i => (i, i)))).map (fun l => (l.1, (none : Option String)))) := by
    simp only [merged_before, if_pos]
  have hpopped : (comments_before comments els limit true).1
      = ((merged_before comments els limit true).dropWhile
          (fun x => x.2.isNone)).map (fun x => x.2) := by
    simp only [comments_before]
  have hpe_none : ∀ x ∈ ((coalesce_runs ((els.take
      ((els.findIdx? (fun l => decide (limit < l))).getD els.length)).map
        (fun i => (i, i)))).map (fun l => (l.1, (none : Option String)))), x.2 = none := by
    intro x hx
    rcases List.mem_map.mp hx with ⟨w, _, hw⟩
    rw [← hw]
  have hpc_pairwise : List.Pairwise (fun a b : Nat × Option String => a.1 < b.1)
      ((comments.take
        ((comments.findIdx? (fun c => decide (limit < c.start))).getD comments.length)).map
          (fun c => (c.start, some c.content))) := by
    rw [List.pairwise_map]
    exact List.Pairwise.sublist (List.take_sublist _ _) hc
  have hpe_pairwise : List.Pairwise (fun a b : Nat × Option String => a.1 < b.1)
      ((coalesce_runs ((els.take
        ((els.findIdx? (fun l => decide (limit < l))).getD els.length)).map
          (fun i => (i, i)))).map (fun l => (l.1, (none : Option String)))) := by
    rw [List.pairwise_map]
    have h1 : List.Pairwise (fun a b : Nat × Nat => a.1 < b.1)
        ((els.take ((els.findIdx? (fun l => decide (limit < l))).getD els.length)).map
          (fun i => (i, i))) := by
      rw [List.pairwise_map]
      exact List.Pairwise.sublist (List.take_sublist _ _) he
    exact (coalesce_runs_pairwise _ h1).imp (fun h => h)
  refine ⟨?_, ?_, ?_, ?_, ?_⟩
  · rw [hpopped]
    cases hdw : ((merged_before comments els limit true).dropWhile
        (fun x => x.2.isNone)) with
    | nil => simp
    | cons a t =>
      have hfalse := dropWhile_head_false _ _ a t hdw
      simp only [List.map_cons, List.head?_cons, ne_eq, Option.some.injEq]
      intro hcontra
      rw [hcontra] at hfalse
      simp at hfalse
  · rw [hpopped]
    have h1 : (((merged_before comments els limit true).dropWhile
        (fun x => x.2.isNone)).map (fun x => x.2)).filterMap id
        = ((merged_before comments els limit true).dropWhile
            (fun x => x.2.isNone)).filterMap (fun x => x.2) := by
      rw [List.filterMap_map]
      rfl
    rw [h1, filterMap_snd_dropWhile_isNone, hmerged,
      mergeBy_filterMap_snd _ _ _ hpe_none, List.filterMap_map]
    have h2 : comments.take
        ((comments.findIdx? (fun c => decide (limit < c.start))).getD comments.length)
        = comments.filter (fun c => decide (c.start ≤ limit)) :=
      take_findIdx_eq_filter (fun c => c.start) limit comments hc
    rw [h2]
    have hcomp : ((fun x : Nat × Option String => x.2) ∘ fun c : Comment => (c.start, some c.content))
        = (some ∘ fun c : Comment => c.content) := rfl
    rw [hcomp, List.filterMap_eq_map]
  · rw [hmerged]
    exact mergeBy_pairwise_le _ _ hpc_pairwise hpe_pairwise
  · exact coalesce_runs_chain _
  · rw [hpopped]
    have h1 : (((merged_before comments els limit true).dropWhile
        (fun x => x.2.isNone)).map (fun x => x.2)).countP (fun o => o.isNone)
        = ((merged_before comments els limit true).dropWhile
            (fun x => x.2.isNone)).countP (fun x => x.2.isNone) := by
      rw [List.countP_map]
      rfl
    rw [h1]
    have h2 := (List.dropWhile_sublist (l := (merged_before comments els limit true))
      (p := fun x => x.2.isNone)).countP_le (fun x => x.2.isNone)
    refine le_trans h2 ?_
    rw [hmerged, (mergeBy_perm _ _ _).countP_eq, List.countP_append]
    have h3 : (((comments.take
        ((comments.findIdx? (fun c => decide (limit < c.start))).getD comments.length)).map
          (fun c => (c.start, some c.content))).countP (fun x => x.2.isNone)) = 0 := by
      rw [List.countP_eq_zero]
      intro a ha
      rcases List.mem_map.mp ha with ⟨w, _, hw⟩
      rw [← hw]
      simp
    have h4 : (((coalesce_runs ((els.take
        ((els.findIdx? (fun l => decide (limit < l))).getD els.length)).map
          (fun i => (i, i)))).map (fun l => (l.1, (none : Option String)))).countP
            (fun x => x.2.isNone))
        = (coalesce_runs ((els.take
          ((els.findIdx? (fun l => decide (limit < l))).getD els.length)).map
            (fun i => (i, i)))).length := by
      rw [List.countP_map, List.countP_eq_length]
      intro a ha
      rfl
    rw [h3, h4]
    simp

/-- Witness for C6 at a concrete trivia state: one comment at offset 2,
empty lines at 0, 1, 5, limit 3. -/
theorem format_c6_witness :
    (comments_before [⟨2, "a"⟩] [0, 1, 5] 3 true).1.head? ≠ some none
    ∧ (comments_before [⟨2, "a"⟩] [0, 1, 5] 3 true).1.filterMap id
        = (([⟨2, "a"⟩] : List Comment).filter (fun c => decide (c.start ≤ 3))).map
            (fun c => c.content)
    ∧ List.Pairwise (fun a b : Nat × Option String => a.1 ≤ b.1)
        (merged_before [⟨2, "a"⟩] [0, 1, 5] 3 true)
    ∧ List.Chain' (fun a b : Nat × Nat => a.2 + 1 ≠ b.1)
        (coalesce_runs ((([0, 1, 5] : List Nat).take
          ((([0, 1, 5] : List Nat).findIdx? (fun l => decide (3 < l))).getD
            ([0, 1, 5] : List Nat).length)).map (fun i => (i, i))))
    ∧ (comments_before [⟨2, "a"⟩] [0, 1, 5] 3 true).1.countP (fun o => o.isNone)
        ≤ (coalesce_runs ((([0, 1, 5] : List Nat).take
          ((([0, 1, 5] : List Nat).findIdx? (fun l => decide (3 < l))).getD
            ([0, 1, 5] : List Nat).length)).map (fun i => (i, i)))).length :=
  format_c6 [⟨2, "a"⟩] [0, 1, 5] 3 (by decide) (by decide)

theorem findIdx_getD_eq_zero {α : Type} (p : α → Bool) (l : List α)
    (h : ∀ x ∈ l, p x = true) : (List.findIdx? p l).getD l.length = 0 := by
  cases l with
  | nil => rfl
  | cons x xs =>
    rw [List.findIdx?_cons, if_pos (h x (List.mem_cons_self x xs))]
    rfl

theorem takeWhile_eq_nil_of_all_false {α : Type} (p : α → Bool) (l : List α)
    (h : ∀ x ∈ l, p x = false) : l.takeWhile p = [] := by
  cases l with
  | nil => rfl
  | cons x xs =>
    rw [List.takeWhile_cons, h x (List.mem_cons_self x xs)]
    rfl

theorem comments_before_all_beyond (cs : List Comment) (els : List Nat) (limit : Nat)
    (r : Bool) (hc : ∀ c ∈ cs, limit < c.start) (he : ∀ e ∈ els, limit < e) :
    comments_before cs els limit r = ([], cs, els) := by
  have h1 : (cs.findIdx? (fun c => decide (limit < c.start))).getD cs.length = 0 :=
    findIdx_getD_eq_zero _ _ (fun x hx => by simp [hc x hx])
  have h2 : (els.findIdx? (fun l => decide (limit < l))).getD els.length = 0 :=
    findIdx_getD_eq_zero _ _ (fun x hx => by simp [he x hx])
  simp [comments_before, merged_before, h1, h2, mergeBy, coalesce_runs]

theorem map_some_dropWhile_isNone (l : List Comment) :
    ((l.map (fun c => (c.start, some c.content))).dropWhile (fun x => x.2.isNone))
      = l.map (fun c => (c.start, some c.content)) := by
  cases l with
  | nil => rfl
  | cons x xs =>
    rw [List.map_cons, List.dropWhile_cons]
    simp

/-- C7: under the construction-time invariant that the trivia sequences are
strictly increasing by offset, each pop operation removes exactly the items at
offsets up to its limit (the remaining cursor is the filter of the strictly
larger offsets), a repeated call with a smaller-or-equal limit returns nothing
and leaves the state unchanged, and every cursor only ever shrinks to a suffix
of itself. -/
theorem format_c7 (f : Formatter) (limit limit' : Nat) (hle : limit' ≤ limit)
    (hc : List.Pairwise (fun a b => a.start < b.start) f.comments)
    (hd : List.Pairwise (fun a b => a.start < b.start) f.doc_comments)
    (he : List.Pairwise (fun a b : Nat => a < b) f.empty_lines) :
    ((f.pop_comments limit).2.comments
        = f.comments.filter (fun c => decide (limit < c.start))
      ∧ (f.pop_comments limit).2.empty_lines
        = f.empty_lines.filter (fun l => decide (limit < l))
      ∧ (f.pop_doc_comments limit).2.doc_comments
        = f.doc_comments.filter (fun c => decide (limit < c.start))
      ∧ (f.pop_doc_comments limit).2.empty_lines
        = f.empty_lines.filter (fun l => decide (limit < l))
      ∧ (f.pop_empty_lines limit).2.empty_lines
        = f.empty_lines.filter (fun l => decide (limit < l))
      ∧ (f.pop_doc_comments limit).1
        = (f.doc_comments.filter (fun c => decide (c.start ≤ limit))).map
            (fun c => some c.content))
    ∧ (((f.pop_comments limit).2.pop_comments limit').1 = []
      ∧ ((f.pop_comments limit).2.pop_comments limit').2 = (f.pop_comments limit).2
      ∧ ((f.pop_doc_comments limit).2.pop_doc_comments limit').1 = []
      ∧ ((f.pop_doc_comments limit).2.pop_doc_comments limit').2 = (f.pop_doc_comments limit).2
      ∧ ((f.pop_empty_lines limit).2.pop_empty_lines limit').1 = false
      ∧ ((f.pop_empty_lines limit).2.pop_empty_lines limit').2 = (f.pop_empty_lines limit).2)
    ∧ ((f.pop_comments limit).2.comments.IsSuffix f.comments
      ∧ (f.pop_comments limit).2.empty_lines.IsSuffix f.empty_lines
      ∧ (f.pop_doc_comments limit).2.doc_comments.IsSuffix f.doc_comments
      ∧ (f.pop_empty_lines limit).2.empty_lines.IsSuffix f.empty_lines) := by
  have hcomments : (f.pop_comments limit).2.comments
      = f.comments.filter (fun c => decide (limit < c.start)) := by
    simp only [Formatter.pop_comments, comments_before]
    exact drop_findIdx_eq_filter (fun c => c.start) limit f.comments hc
  have hcem : (f.pop_comments limit).2.empty_lines
      = f.empty_lines.filter (fun l => decide (limit < l)) := by
    simp only [Formatter.pop_comments, comments_before]
    exact drop_findIdx_eq_filter (fun l => l) limit f.empty_lines he
  have hdoc : (f.pop_doc_comments limit).2.doc_comments
      = f.doc_comments.filter (fun c => decide (limit < c.start)) := by
    simp only [Formatter.pop_doc_comments, comments_before]
    exact drop_findIdx_eq_filter (fun c => c.start) limit f.doc_comments hd
  have hdem : (f.pop_doc_comments limit).2.empty_lines
      = f.empty_lines.filter (fun l => decide (limit < l)) := by
    simp only [Formatter.pop_doc_comments, comments_before]
    exact drop_findIdx_eq_filter (fun l => l) limit f.empty_lines he
  have hem : (f.pop_empty_lines limit).2.empty_lines
      = f.empty_lines.filter (fun l => decide (limit < l)) := by
    simp only [Formatter.pop_empty_lines]
    rw [drop_eq_dropWhile_of_length, dropWhile_eq_filter_of_key_sorted (fun l => l) limit
      f.empty_lines he]
  have hdocpop : (f.pop_doc_comments limit).1
      = (f.doc_comments.filter (fun c => decide (c.start ≤ limit))).map
          (fun c => some c.content) := by
    simp only [Formatter.pop_doc_comments, comments_before, merged_before, if_neg,
      Bool.false_eq_true, not_false_iff, List.take_nil, List.map_nil]
    rw [coalesce_runs, List.map_nil, mergeBy_nil_right, map_some_dropWhile_isNone,
      List.map_map, take_findIdx_eq_filter (fun c => c.start) limit f.doc_comments hd]
    rfl
  have hfilter_gt : ∀ (cs : List Comment), ∀ c ∈ cs.filter (fun c => decide (limit < c.start)),
      limit' < c.start := by
    intro cs c hmem
    have := (List.mem_filter.mp hmem).2
    simp only [decide_eq_true_eq] at this
    omega
  have hfilter_gt' : ∀ (ls : List Nat), ∀ l ∈ ls.filter (fun l => decide (limit < l)),
      limit' < l := by
    intro ls l hmem
    have := (List.mem_filter.mp hmem).2
    simp only [decide_eq_true_eq] at this
    omega
  have hsecond : ∀ (g : Formatter),
      g.comments = f.comments.filter (fun c => decide (limit < c.start)) →
      g.empty_lines = f.empty_lines.filter (fun l => decide (limit < l)) →
      g.pop_comments limit' = ([], g) := by
    intro g hgc hge
    have hall : comments_before g.comments g.empty_lines limit' true
        = ([], g.comments, g.empty_lines) := by
      rw [hgc, hge]
      exact comments_before_all_beyond _ _ _ _ (hfilter_gt f.comments)
        (hfilter_gt' f.empty_lines)
    simp only [Formatter.pop_comments, hall]
  have hsecond_doc : ∀ (g : Formatter),
      g.doc_comments = f.doc_comments.filter (fun c => decide (limit < c.start)) →
      g.empty_lines = f.empty_lines.filter (fun l => decide (limit < l)) →
      g.pop_doc_comments limit' = ([], g) := by
    intro g hgc hge
    have hall : comments_before g.doc_comments g.empty_lines limit' false
        = ([], g.doc_comments, g.empty_lines) := by
      rw [hgc, hge]
      exact comments_before_all_beyond _ _ _ _ (hfilter_gt f.doc_comments)
        (hfilter_gt' f.empty_lines)
    simp only [Formatter.pop_doc_comments, hall]
  have hsecond_em : ∀ (g : Formatter),
      g.empty_lines = f.empty_lines.filter (fun l => decide (limit < l)) →
      g.pop_empty_lines limit' = (false, g) := by
    intro g hge
    have htw : g.empty_lines.takeWhile (fun p => decide (p ≤ limit')) = [] := by
      refine takeWhile_eq_nil_of_all_false _ _ (fun x hx => ?_)
      have := hfilter_gt' f.empty_lines x (hge ▸ hx)
      simp only [decide_eq_false_iff_not]
      omega
    simp only [Formatter.pop_empty_lines, htw]
    rfl
  refine ⟨⟨hcomments, hcem, hdoc, hdem, hem, hdocpop⟩, ⟨?_, ?_, ?_, ?_, ?_, ?_⟩,
    ?_, ?_, ?_, ?_⟩
  · rw [hsecond _ hcomments hcem]
  · rw [hsecond _ hcomments hcem]
  · rw [hsecond_doc _ hdoc hdem]
  · rw [hsecond_doc _ hdoc hdem]
  · rw [hsecond_em _ hem]
  · rw [hsecond_em _ hem]
  · simp only [Formatter.pop_comments, comments_before]
    exact List.drop_suffix _ _
  · simp only [Formatter.pop_comments, comments_before]
    exact List.drop_suffix _ _
  · simp only [Formatter.pop_doc_comments, comments_before]
    exact List.drop_suffix _ _
  · simp only [Formatter.pop_empty_lines]
    exact List.drop_suffix _ _

/-- Witness for C7 at a concrete formatter state (comment at offset 1, empty
lines at 0 and 9, limits 5 then 4). -/
theorem format_c7_witness :
    (4 ≤ 5)
    ∧ ((⟨[⟨1, "a"⟩], [], [], [0, 9]⟩ : Formatter).pop_comments 5).2.comments
        = ([⟨1, "a"⟩] : List Comment).filter (fun c => decide (5 < c.start))
    ∧ (((⟨[⟨1, "a"⟩], [], [], [0, 9]⟩ : Formatter).pop_comments 5).2.pop_comments 4).1 = []
    ∧ ((⟨[⟨1, "a"⟩], [], [], [0, 9]⟩ : Formatter).pop_empty_lines 5).2.empty_lines.IsSuffix
        ([0, 9] : List Nat) :=
  ⟨by decide,
   (format_c7 ⟨[⟨1, "a"⟩], [], [], [0, 9]⟩ 5 4 (by decide) (by decide) (by decide)
     (by decide)).1.1,
   (format_c7 ⟨[⟨1, "a"⟩], [], [], [0, 9]⟩ 5 4 (by decide) (by decide) (by decide)
     (by decide)).2.1.1,
   (format_c7 ⟨[⟨1, "a"⟩], [], [], [0, 9]⟩ 5 4 (by decide) (by decide) (by decide)
     (by decide)).2.2.2.2.2⟩

end GleamFormat
